import Mathlib

/-!
Verification of the Mongolian book translation pipeline
(`main.py` and `assemble.py`) against its specification.

The Python source is embedded shallowly: pure fragments become Lean
functions over `List Char` / `String`, the in-place mutation of the
document state is modelled by explicit state passing, and the calls to
the external translation service are abstracted as function parameters
(the code never inspects the transport layer beyond the shapes modelled
here).  Each definition carries a comment pointing to the source lines
it translates.
-/

set_option autoImplicit false

namespace MTB

/-! ## Character classes

`isWs` models Python's regex class `\s` (and the default `str.split` /
`str.strip` separator set) restricted to the ASCII whitespace characters
Python recognises: space, tab, newline, carriage return, vertical tab,
form feed.  `isPunc` models the character set `[.!?]` used both by the
segmenter regex (main.py line 71) and by the `endswith(('.', '!', '?'))`
checks (main.py lines 213 and 275). -/

def isWs (c : Char) : Bool :=
  c = ' ' ∨ c = '\t' ∨ c = '\n' ∨ c = '\r' ∨ c = '\x0b' ∨ c = '\x0c'

def isPunc (c : Char) : Bool :=
  c = '.' ∨ c = '!' ∨ c = '?'

/-- Python `str.strip()`: drop leading and trailing whitespace. -/
def pyStrip (t : List Char) : List Char :=
  ((t.dropWhile (fun c => isWs c)).reverse.dropWhile (fun c => isWs c)).reverse

/-- Python `str.split()` with no argument (main.py line 80,
`chunk.split()`): the maximal whitespace-free runs, i.e. cut at every
whitespace character and drop the empty pieces. -/
def pyWords (t : List Char) : List (List Char) :=
  (t.splitOnP (fun c => isWs c)).filter (fun w => w ≠ [])

/-! ## The sentence splitter regex

`reSplit` models `re.split(r'([.!?])\s+', text)` (main.py line 71): the
input is cut at every occurrence of a sentence-terminal punctuation
character followed by a whitespace run, the punctuation character itself
is kept as a separate element (it is a capture group), and the
whitespace run is consumed.  The scanner below walks the characters one
at a time; the boolean flag records that it is inside the whitespace run
of a match (mirroring the greedy `\s+`). -/

def headIsWs : List Char → Bool
  | [] => false
  | c :: _ => isWs c

def reSplitGo : Bool → List Char → List Char → List (List Char)
  | _, [], acc => [acc.reverse]
  | skip, c :: rest, acc =>
    if skip ∧ isWs c then reSplitGo true rest acc
    else if isPunc c ∧ headIsWs rest then
      acc.reverse :: [c] :: reSplitGo true rest []
    else reSplitGo false rest (c :: acc)

def reSplit (t : List Char) : List (List Char) :=
  reSplitGo false t []

/-! ## `split_sentences` (main.py lines 69-93) -/

/-- The abbreviation set of main.py line 74. -/
def abbreviations : List (List Char) :=
  ["Mr".toList, "Mrs".toList, "Ms".toList, "Dr".toList, "St".toList,
   "a".toList, "p".toList, "v".toList, "vs".toList, "Inc".toList,
   "Ltd".toList, "Corp".toList]

/-- The pairs `(raw_splits[i], raw_splits[i+1])` visited by
`for i in range(0, len(raw_splits) - 1, 2)` (main.py line 76). -/
def toPairs : List (List Char) → List (List Char × List Char)
  | t :: p :: rest => (t, p) :: toPairs rest
  | _ => []

/-- One iteration of the loop body (main.py lines 77-84): the state is
`(sentences, current)`. -/
def splitStep (st : List (List Char) × List Char) (pr : List Char × List Char) :
    List (List Char) × List Char :=
  if (pyWords pr.1).getLastD [] ∈ abbreviations then (st.1, st.2 ++ pr.1 ++ pr.2)
  else (st.1 ++ [pyStrip (st.2 ++ pr.1 ++ pr.2)], [])

/-- `split_sentences` (main.py lines 69-93) over character lists. -/
def splitSentencesL (t : List Char) : List (List Char) :=
  if t = [] then []
  else
    let raw := reSplit t
    let st := (toPairs raw).foldl splitStep ([], [])
    let sentences :=
      if st.2 ≠ [] then
        let current :=
          if raw.length % 2 ≠ 0 then st.2 ++ raw.getLastD [] else st.2
        st.1 ++ [pyStrip current]
      else if raw.length % 2 ≠ 0 then
        st.1 ++ [pyStrip (raw.getLastD [])]
      else st.1
    sentences.filter (fun s => 2 < s.length)

/-- `split_sentences` on `String`, the type at which the pipeline calls it. -/
def split_sentences (s : String) : List String :=
  (splitSentencesL s.toList).map (fun l => String.mk l)

/-! ## Substring containment (Python's `in` operator on strings) -/

def startsWithL : List Char → List Char → Bool
  | [], _ => true
  | _ :: _, [] => false
  | p :: ps, c :: cs => p = c && startsWithL ps cs

/-- `hasSubstr pat t` models Python `pat in t` for strings. -/
def hasSubstr (pat : List Char) : List Char → Bool
  | [] => startsWithL pat []
  | c :: cs => startsWithL pat (c :: cs) || hasSubstr pat cs

/-! ## Facts about the splitter used by the idempotence proof

`noPat t` says the split pattern (a terminal punctuation character
followed by a whitespace character) occurs nowhere in `t`; such a `t` is
left in one piece by `reSplit`. -/

def noPat : List Char → Bool
  | [] => true
  | c :: rest => !(isPunc c && headIsWs rest) && noPat rest

/-- Python's `words[-1] if words else ""` (main.py line 81). -/
def lastWordOf (x : List Char) : List Char :=
  (pyWords x).getLastD []

/-- Shape of the piece list returned by `reSplit`: alternating
pattern-free chunks and single punctuation separators; every chunk after
the first starts with a non-whitespace character (the whitespace run of
a match is consumed). -/
inductive RawShape : Bool → List (List Char) → Prop where
  | last (first : Bool) (s : List Char) (h : noPat s = true)
      (hw : first = false → headIsWs s = false) : RawShape first [s]
  | step (first : Bool) (s : List Char) (p : Char) (rest : List (List Char))
      (h : noPat s = true) (hw : first = false → headIsWs s = false)
      (hp : isPunc p = true) (hr : RawShape false rest) :
      RawShape first (s :: [p] :: rest)

/-! ### The invariant satisfied by every output of `split_sentences` -/

def PuncEnd (s : List Char) : Prop :=
  s ≠ [] ∧ isPunc (s.getLastD ' ') = true

def LWok (s : List Char) : Prop :=
  lastWordOf s.dropLast ∉ abbreviations

def SentBasic (s : List Char) : Prop :=
  noPat s = true ∧ pyStrip s = s

/-- The shape of a `split_sentences` result: every sentence is stripped,
pattern-free and longer than two characters, and every sentence except
possibly the last ends in terminal punctuation whose preceding word is
not an abbreviation. -/
def Good (l : List (List Char)) : Prop :=
  (∀ s ∈ l, 2 < s.length ∧ SentBasic s) ∧ (∀ s ∈ l.dropLast, PuncEnd s ∧ LWok s)

/-- The tail of the `split_sentences` body after the pair loop, for a raw
list of odd length (which `reSplit` always produces). -/
def assembleTail (raw : List (List Char)) (st : List (List Char) × List Char) :
    List (List Char) :=
  if st.2 ≠ [] then st.1 ++ [pyStrip (st.2 ++ raw.getLastD [])]
  else st.1 ++ [pyStrip (raw.getLastD [])]

def processRaw (sents : List (List Char)) (cur : List Char)
    (raw : List (List Char)) : List (List Char) :=
  assembleTail raw ((toPairs raw).foldl splitStep (sents, cur))

/-! ### Re-segmenting the joined output -/

/-- Joining a sentence list with single spaces (the natural reading of
"whitespace-joined concatenation" in the idempotence property). -/
def joinSp : List (List Char) → List Char
  | [] => []
  | [s] => s
  | s :: r :: rest => s ++ ' ' :: joinSp (r :: rest)

/-- The piece list `reSplit` produces on such a join. -/
def rawOf : List (List Char) → List (List Char)
  | [] => []
  | [s] => [s]
  | s :: r :: rest => s.dropLast :: [s.getLastD ' '] :: rawOf (r :: rest)

/-! ## Stage 1: structural extraction (main.py lines 189-260)

Blocks yielded by `get_page_structure` are modelled abstractly: an image
block carries its bitmap path, a text block its classification
(heading/paragraph), raw text, and the sentence list `split_sentences`
produced for it.  The external translation service is a function
parameter `trans` mapping the current chapter label and the batch of
sentences to the `(en, mn)` pairs recovered from its reply (the raw
reply layer, with its malformed shapes, is modelled separately below). -/

inductive BType where
  | heading
  | paragraph
deriving DecidableEq

/-- One sentence's bilingual pair, `{"en": ..., "mn": ...}`. -/
structure Seg where
  en : String
  mn : String
deriving DecidableEq

/-- A block as produced by `get_page_structure` (main.py lines 127-187). -/
inductive SBlock where
  | image (path : String)
  | text (btype : BType) (textStr : String) (sentences : List String)
deriving DecidableEq

/-- A block of the persisted Document State (main.py lines 215-220 and 238-243). -/
inductive OutBlock where
  | image (page : Nat) (path : String)
  | text (page : Nat) (btype : BType) (content : List Seg)
deriving DecidableEq

/-- `mn.endswith(('.', '!', '?'))` (main.py lines 213 and 275). -/
def endsTerminal (s : String) : Bool :=
  isPunc (s.data.getLastD ' ')

/-- `if mn and not mn.endswith(('.', '!', '?')): mn += "."`
(main.py line 213; the same statement guarded by a non-empty check occurs
at line 275). -/
def ensureTerminal (s : String) : String :=
  if s ≠ "" ∧ endsTerminal s = false then s ++ "." else s

/-- `mapping.get(en, "")` where `mapping = {t["en"]: t["mn"] for t in translations}`
(main.py lines 208 and 212): the last pair with the given key wins, a
missing key yields the empty string. -/
def dictGet (pairs : List (String × String)) (k : String) : String :=
  ((pairs.filter (fun pr => pr.1 = k)).map (fun pr => pr.2)).getLastD ""

/-- A text block waiting in the Pending Batch (main.py lines 246-248). -/
structure PendingBlock where
  page : Nat
  btype : BType
  sentences : List String
deriving DecidableEq

/-- `flush_batch` (main.py lines 203-225): translate the pending
sentences, distribute the translations back by exact string match,
append terminal punctuation to non-empty results, and append the
completed blocks to the document structure.  Returns the new
`full_structure`; the caller clears the pending lists. -/
def flush_batch (trans : List String → List (String × String))
    (pendingSentences : List String) (pendingBlocks : List PendingBlock)
    (fullStructure : List OutBlock) : List OutBlock :=
  if pendingSentences = [] then fullStructure
  else
    let mapping := trans pendingSentences
    fullStructure ++ pendingBlocks.map (fun b =>
      OutBlock.text b.page b.btype (b.sentences.map (fun en =>
        ⟨en, ensureTerminal (dictGet mapping en)⟩)))

/-- The mutable state of the Stage-1 page loop (main.py lines 198-201). -/
structure S1State where
  fullStructure : List OutBlock
  currentChapter : String
  pendingSentences : List String
  pendingBlocks : List PendingBlock
deriving DecidableEq

/-- Processing of one block inside the page loop (main.py lines 233-251):
headings update the chapter label, image blocks are appended to the
document structure immediately, text blocks join the pending batch which
is flushed as soon as it holds at least 30 sentences. -/
def s1Block (trans : String → List String → List (String × String)) (pageNum : Nat)
    (st : S1State) (b : SBlock) : S1State :=
  match b with
  | SBlock.image path =>
    { st with fullStructure := st.fullStructure ++ [OutBlock.image (pageNum + 1) path] }
  | SBlock.text btype textStr sentences =>
    let chapter := if btype = BType.heading then textStr else st.currentChapter
    let pbs := st.pendingBlocks ++ [⟨pageNum + 1, btype, sentences⟩]
    let ps := st.pendingSentences ++ sentences
    if 30 ≤ ps.length then
      { fullStructure := flush_batch (trans chapter) ps pbs st.fullStructure,
        currentChapter := chapter,
        pendingSentences := [],
        pendingBlocks := [] }
    else
      { fullStructure := st.fullStructure,
        currentChapter := chapter,
        pendingSentences := ps,
        pendingBlocks := pbs }

/-- The Stage-1 extraction loop of `process_book_stage1`
(main.py lines 196-257): fold over the pages (the page number is the
list index), then a final flush; the result is the persisted Document
State.  The idempotent short-circuit on an existing structural file and
the persistence calls are modelled in the Driver section. -/
def process_book_stage1 (trans : String → List String → List (String × String))
    (pages : List (List SBlock)) : List OutBlock :=
  let stEnd := pages.enum.foldl
    (fun st pr => pr.2.foldl (s1Block trans pr.1) st)
    ⟨[], "Unknown", [], []⟩
  flush_batch (trans stEnd.currentChapter) stEnd.pendingSentences stEnd.pendingBlocks
    stEnd.fullStructure

def imgOfS : SBlock → List String
  | SBlock.image p => [p]
  | SBlock.text _ _ _ => []

def textOfS : SBlock → List (List String)
  | SBlock.image _ => []
  | SBlock.text _ _ sents => [sents]

/-- Image paths of the source document, in reading order. -/
def srcImagePaths (pages : List (List SBlock)) : List String :=
  (pages.flatten.map imgOfS).flatten

/-- Sentence lists of the source text blocks, in reading order. -/
def srcTextSents (pages : List (List SBlock)) : List (List String) :=
  (pages.flatten.map textOfS).flatten

/-- Image paths of a persisted Document State, in order. -/
def outImagePaths (outs : List OutBlock) : List String :=
  outs.filterMap (fun b =>
    match b with
    | OutBlock.image _ p => some p
    | OutBlock.text _ _ _ => none)

/-- Source sentence lists of the persisted text blocks, in order. -/
def outTextEns (outs : List OutBlock) : List (List String) :=
  outs.filterMap (fun b =>
    match b with
    | OutBlock.image _ _ => none
    | OutBlock.text _ _ content => some (content.map Seg.en))

/-- The segments of a persisted Document State. -/
def outSegs (outs : List OutBlock) : List Seg :=
  (outs.map (fun b =>
    match b with
    | OutBlock.image _ _ => []
    | OutBlock.text _ _ content => content)).flatten

/-- The sentence lists still waiting in the pending batch. -/
def pendSents (st : S1State) : List (List String) :=
  st.pendingBlocks.map PendingBlock.sentences

/-- The terminal-punctuation property of a segment's target text. -/
def TermOk (sg : Seg) : Prop :=
  sg.mn = "" ∨ endsTerminal sg.mn = true

/-! ## Patcher (main.py lines 262-284)

`patch_missing_translations` walks the loaded structural JSON in place.
The per-sentence service call `translate_sentence_batch([en], title,
"Patching")` followed by the guard `res and res[0].get("mn")` is
modelled by `t1 : String → Option String`: `some mn` stands for a reply
whose first entry carries the value `mn` under `"mn"` (the guard then
additionally requires `mn` to be non-empty).  The instrumentation record
`PatchSt` exposes what the Python function does through side effects:
the number of service requests issued, the number of segments patched
(`modified_count`, which is only logged), and the list of full Document
State snapshots written to the cache file.  The Python function's return
value (`return data`, line 284) corresponds to the first component of
the result alone. -/

structure PatchSt where
  requests : Nat
  count : Nat
  writes : List (List OutBlock)
deriving DecidableEq

/-- `not item.get("mn") or len(item["mn"]) < 3` (main.py line 271). -/
def isDeficient (s : Seg) : Bool :=
  s.mn = "" ∨ s.mn.length < 3

/-- Whether the single-sentence request for `s` yields a usable patch
(`res and res[0].get("mn")`, main.py line 273). -/
def patchHit (t1 : String → Option String) (s : Seg) : Bool :=
  match t1 s.en with
  | some mn => mn ≠ ""
  | none => false

/-- The per-segment effect of one Patcher pass (main.py lines 271-276). -/
def patchSegPure (t1 : String → Option String) (s : Seg) : Seg :=
  if isDeficient s then
    match t1 s.en with
    | some mn => if mn ≠ "" then ⟨s.en, ensureTerminal mn⟩ else s
    | none => s
  else s

/-- Inner loop of the Patcher over one block's `content` (main.py lines
270-278).  `mkSnap` rebuilds the full Document State from the block's
current segment list, modelling that `json.dump(data, ...)` writes the
whole mutated document. -/
def patchSegs (t1 : String → Option String) (mkSnap : List Seg → List OutBlock) :
    List Seg → List Seg → PatchSt → (List Seg × PatchSt)
  | done, [], st => (done, st)
  | done, s :: rest, st =>
    if isDeficient s then
      match t1 s.en with
      | some mn =>
        if mn ≠ "" then
          patchSegs t1 mkSnap (done ++ [⟨s.en, ensureTerminal mn⟩]) rest
            { requests := st.requests + 1,
              count := st.count + 1,
              writes := st.writes ++ [mkSnap (done ++ ⟨s.en, ensureTerminal mn⟩ :: rest)] }
        else
          patchSegs t1 mkSnap (done ++ [s]) rest { st with requests := st.requests + 1 }
      | none =>
        patchSegs t1 mkSnap (done ++ [s]) rest { st with requests := st.requests + 1 }
    else patchSegs t1 mkSnap (done ++ [s]) rest st

/-- Outer loop of the Patcher over the blocks (main.py lines 268-269):
only paragraph and heading blocks are scanned. -/
def patchBlocks (t1 : String → Option String) :
    List OutBlock → List OutBlock → PatchSt → (List OutBlock × PatchSt)
  | done, [], st => (done, st)
  | done, OutBlock.image pg path :: rest, st =>
    patchBlocks t1 (done ++ [OutBlock.image pg path]) rest st
  | done, OutBlock.text pg bt content :: rest, st =>
    let r := patchSegs t1 (fun segs => done ++ OutBlock.text pg bt segs :: rest) [] content st
    patchBlocks t1 (done ++ [OutBlock.text pg bt r.1]) rest r.2

/-- `patch_missing_translations` (main.py lines 262-284).  The Python
function returns only the document state (`.1` here); the `PatchSt`
component records its side effects. -/
def patch_missing_translations (t1 : String → Option String) (data : List OutBlock) :
    List OutBlock × PatchSt :=
  patchBlocks t1 [] data ⟨0, 0, []⟩

/-- Blockwise application of a segment transformation. -/
def mapBlockSegs (f : Seg → Seg) : OutBlock → OutBlock
  | OutBlock.image pg path => OutBlock.image pg path
  | OutBlock.text pg bt content => OutBlock.text pg bt (content.map f)

/-! ## Stage 2: Refiner (assemble.py lines 65-131)

`refine_chunk` sends one chunk to the service; the reply is abstracted
as `Option (List String)`: `none` is any failure path (transport error,
non-2xx status, unparsable reply, `result` without usable content — the
`except` clause returns the chunk unchanged), `some refined` a reply
whose extracted `refined_mn` list is `refined`.  Python mutates the
shared block dictionaries in place; since every translatable block
belongs to exactly one chunk and `refine_chunk` preserves the block
count, the mutation is modelled by refining the filtered translatable
list chunkwise and re-inserting the results positionally (`reinsert`). -/

/-- `b["type"] in ["paragraph", "heading"] and b["content"]`
(assemble.py line 118). -/
def isTranslatable (b : OutBlock) : Bool :=
  match b with
  | OutBlock.image _ _ => false
  | OutBlock.text _ _ content => content ≠ []

/-- The `input_text` accumulation of assemble.py lines 69-72:
`input_text += f"{item['mn']}\n"` over every item of every block. -/
def inputTextOf (chunk : List OutBlock) : String :=
  String.join (((chunk.map (fun b =>
    match b with
    | OutBlock.image _ _ => []
    | OutBlock.text _ _ content => content.map (fun s => s.mn ++ "\n"))).flatten))

/-- The positional mapping loop of assemble.py lines 102-107: the first
component is the rewritten segment list, the second the unconsumed
remainder of `refined_mn`. -/
def refineSegs : List Seg → List String → (List Seg × List String)
  | [], rem => ([], rem)
  | s :: rest, [] => (s :: rest, [])
  | s :: rest, r :: rem =>
    let t := refineSegs rest rem
    (⟨s.en, r⟩ :: t.1, t.2)

/-- The same loop threaded across the blocks of one chunk. -/
def refineBlocksGo : List OutBlock → List String → (List OutBlock × List String)
  | [], rem => ([], rem)
  | OutBlock.image pg p :: rest, rem =>
    let t := refineBlocksGo rest rem
    (OutBlock.image pg p :: t.1, t.2)
  | OutBlock.text pg bt c :: rest, rem =>
    let r := refineSegs c rem
    let t := refineBlocksGo rest r.2
    (OutBlock.text pg bt r.1 :: t.1, t.2)

/-- `refine_chunk` (assemble.py lines 65-112). -/
def refine_chunk (reply : Option (List String)) (chunk : List OutBlock) : List OutBlock :=
  if chunk = [] then chunk
  else if pyStrip (inputTextOf chunk).data = [] then chunk
  else
    match reply with
    | none => chunk
    | some refined => (refineBlocksGo chunk refined).1

def chunksGo {α : Type} : List α → List α → Nat → List (List α)
  | [], accRev, _ => if accRev.isEmpty then [] else [accRev.reverse]
  | a :: rest, accRev, 0 => accRev.reverse :: chunksGo rest [a] 14
  | a :: rest, accRev, Nat.succ k => chunksGo rest (a :: accRev) k

/-- The chunking `for i in range(0, len(translatable_blocks), 15)`
(assemble.py lines 121 and 126-127): groups of 15 consecutive blocks,
the last group possibly smaller. -/
def chunksOf15 {α : Type} (l : List α) : List (List α) :=
  chunksGo l [] 15

/-- Replace the translatable blocks of `blocks` positionally by the
elements of `repl` (the model of in-place mutation of the aliased block
dictionaries). -/
def reinsert : List OutBlock → List OutBlock → List OutBlock
  | [], _ => []
  | b :: rest, repl =>
    if isTranslatable b then
      match repl with
      | r :: rrem => r :: reinsert rest rrem
      | [] => b :: reinsert rest []
    else b :: reinsert rest repl

/-- `refine_narrative_chunked` (assemble.py lines 114-131); `replies i`
is the service outcome for the i-th chunk. -/
def refine_narrative_chunked (replies : Nat → Option (List String))
    (blocks : List OutBlock) : List OutBlock :=
  if blocks = [] then []
  else
    let translatable := blocks.filter (fun b => isTranslatable b)
    if translatable = [] then blocks
    else
      reinsert blocks
        (((chunksOf15 translatable).enum.map
          (fun pr => refine_chunk (replies pr.1) pr.2)).flatten)

/-! ## Stage 3: the reflowable (EPUB) renderer (assemble.py lines 178-231)

Only the chapter-grouping logic is modelled: the content of a chapter is
kept as the list of HTML fragments appended to `current_content` (the
Python string is their concatenation); book metadata, spine and file
output are irrelevant to the claims.  `pathExists` abstracts
`os.path.exists`. -/

structure Chapter where
  title : String
  fragments : List String
deriving DecidableEq

/-- `" ".join(item["mn"] for item in block["content"] if item.get("mn"))`
(assemble.py lines 211 and 215). -/
def joinMn (content : List Seg) : String :=
  String.intercalate " " ((content.map Seg.mn).filter (fun mn => mn ≠ ""))

/-- `os.path.basename` restricted to slash-separated paths. -/
def basename (p : String) : String :=
  String.mk ((p.data.reverse.takeWhile (fun c => ¬ c = '/')).reverse)

/-- One iteration of the block loop (assemble.py lines 193-217); the
pair component is the running index `i`. -/
def epubStep (pathExists : String → Bool)
    (st : List Chapter × Option String × List String)
    (ib : Nat × OutBlock) : List Chapter × Option String × List String :=
  match ib.2 with
  | OutBlock.image _ path =>
    if pathExists path then
      (st.1, st.2.1, st.2.2 ++ ["<div><img src=\"images/" ++ basename path ++ "\" /></div>"])
    else st
  | OutBlock.text _ bt content =>
    if bt = BType.heading ∨ ib.1 = 0 then
      let chapters2 :=
        match st.2.1 with
        | some t => st.1 ++ [⟨t, st.2.2⟩]
        | none => st.1
      let title := if joinMn content = "" then "Chapter" else joinMn content
      (chapters2, some title, ["<h1>" ++ title ++ "</h1>"])
    else
      if joinMn content ≠ "" then
        (st.1, st.2.1, st.2.2 ++ ["<p>" ++ joinMn content ++ "</p>"])
      else st

/-- The final flush of assemble.py lines 219-222. -/
def finalizeEpub (st : List Chapter × Option String × List String) : List Chapter :=
  match st.2.1 with
  | some t => st.1 ++ [⟨t, st.2.2⟩]
  | none => st.1

/-- The chapter structure `assemble_epub` builds (assemble.py lines 189-224). -/
def assemble_epub (pathExists : String → Bool) (bookData : List OutBlock) :
    List Chapter :=
  finalizeEpub (bookData.enum.foldl (epubStep pathExists) ([], none, []))

/-- The fragments one block contributes when it is not at index 0. -/
def fragOf (pathExists : String → Bool) (b : OutBlock) : List String :=
  match b with
  | OutBlock.image _ path =>
    if pathExists path then
      ["<div><img src=\"images/" ++ basename path ++ "\" /></div>"]
    else []
  | OutBlock.text _ bt content =>
    if bt = BType.heading then
      ["<h1>" ++ (if joinMn content = "" then "Chapter" else joinMn content) ++ "</h1>"]
    else if joinMn content ≠ "" then ["<p>" ++ joinMn content ++ "</p>"]
    else []

def isImageB : OutBlock → Bool
  | OutBlock.image _ _ => true
  | OutBlock.text _ _ _ => false

/-- The chapter-opening fragment of a non-image first block. -/
def chapterLead : OutBlock → List String
  | OutBlock.image _ _ => []
  | OutBlock.text _ _ content =>
    ["<h1>" ++ (if joinMn content = "" then "Chapter" else joinMn content) ++ "</h1>"]

/-- The title a text block yields. -/
def titleOf : OutBlock → String
  | OutBlock.image _ _ => "Chapter"
  | OutBlock.text _ _ content => if joinMn content = "" then "Chapter" else joinMn content

/-! ## JSON: `json.loads` and the two `extract_json` variants

`main.extract_json` (main.py lines 53-64) and `assemble.extract_json`
(assemble.py lines 55-63) both strip control characters, locate a
brace-or-bracket span with `re.search(r'(\x7b.*\x7d|\[.*\])', text,
re.DOTALL)` and feed it to `json.loads`; only the main.py variant first
repairs trailing commas with `re.sub(r',\s*\x7d', '\x7d', ...)` and
`re.sub(r',\s*\]', ']', ...)`.  `json.loads` is modelled by a
fuel-driven strict decoder over a JSON value tree: objects keep their
pairs in parse order (Python's dict keeps the last duplicate; `jGet`
reads accordingly), numbers keep their lexeme, and a `\uXXXX` escape
becomes the character with that code (surrogate pairing is not
modelled).  Any exception is `none`. -/

inductive JVal where
  | null
  | bool (b : Bool)
  | num (lexeme : String)
  | str (s : String)
  | arr (elems : List JVal)
  | obj (fields : List (String × JVal))

/-- The decoder's whitespace (`json.decoder.WHITESPACE`: space, tab,
newline, carriage return). -/
def jIsWs (c : Char) : Bool :=
  c = ' ' ∨ c = '\t' ∨ c = '\n' ∨ c = '\r'

def skipWs (l : List Char) : List Char :=
  l.dropWhile jIsWs

def hexVal (c : Char) : Option Nat :=
  if '0' ≤ c ∧ c ≤ '9' then some (c.toNat - '0'.toNat)
  else if 'a' ≤ c ∧ c ≤ 'f' then some (c.toNat - 'a'.toNat + 10)
  else if 'A' ≤ c ∧ c ≤ 'F' then some (c.toNat - 'A'.toNat + 10)
  else none

def escChar (c : Char) : Option Char :=
  if c = '"' then some '"'
  else if c = '\\' then some '\\'
  else if c = '/' then some '/'
  else if c = 'b' then some '\x08'
  else if c = 'f' then some '\x0c'
  else if c = 'n' then some '\n'
  else if c = 'r' then some '\r'
  else if c = 't' then some '\t'
  else none

/-- String body after the opening quote (`json.decoder.py_scanstring`,
strict mode): returns the decoded characters and the input after the
closing quote; an unterminated string, an unknown escape or an unescaped
control character is an error. -/
def parseStr : List Char → Option (List Char × List Char)
  | [] => none
  | c :: rest =>
    if c = '"' then some ([], rest)
    else if c = '\\' then
      match rest with
      | [] => none
      | e :: rest2 =>
        if e = 'u' then
          match rest2 with
          | a :: b :: c2 :: d :: rest3 =>
            match hexVal a, hexVal b, hexVal c2, hexVal d with
            | some ha, some hb, some hc, some hd =>
              match parseStr rest3 with
              | some (s, r) =>
                some (Char.ofNat (((ha * 16 + hb) * 16 + hc) * 16 + hd) :: s, r)
              | none => none
            | _, _, _, _ => none
          | _ => none
        else
          match escChar e with
          | some ec =>
            match parseStr rest2 with
            | some (s, r) => some (ec :: s, r)
            | none => none
          | none => none
    else if c.toNat < 32 then none
    else
      match parseStr rest with
      | some (s, r) => some (c :: s, r)
      | none => none

/-- The number token `json.scanner` matches with
`(-?(?:0|[1-9]\d*))(\.\d+)?([eE][-+]?\d+)?`: the longest such token at
the head of the input (a fraction or exponent part that does not
complete is simply not consumed, as a regular expression would leave
it). -/
def parseNum (l : List Char) : Option (List Char × List Char) :=
  let pr1 : List Char × List Char :=
    match l with
    | '-' :: r => (['-'], r)
    | _ => ([], l)
  match pr1.2 with
  | [] => none
  | d :: _ =>
    if ¬ d.isDigit then none
    else
      let ip := pr1.2.takeWhile Char.isDigit
      let r1 := pr1.2.dropWhile Char.isDigit
      if 1 < ip.length ∧ ip.headD '0' = '0' then none
      else
        let pr2 : List Char × List Char :=
          match r1 with
          | '.' :: r =>
            let ds := r.takeWhile Char.isDigit
            if ds.isEmpty then ([], r1) else ('.' :: ds, r.dropWhile Char.isDigit)
          | _ => ([], r1)
        let pr3 : List Char × List Char :=
          match pr2.2 with
          | e :: r =>
            if e = 'e' ∨ e = 'E' then
              let sg : List Char × List Char :=
                match r with
                | s :: rs => if s = '+' ∨ s = '-' then ([s], rs) else ([], r)
                | [] => ([], r)
              let ds := sg.2.takeWhile Char.isDigit
              if ds.isEmpty then ([], pr2.2)
              else (e :: (sg.1 ++ ds), sg.2.dropWhile Char.isDigit)
            else ([], pr2.2)
          | [] => ([], pr2.2)
        some (pr1.1 ++ ip ++ pr2.1 ++ pr3.1, pr3.2)

/-- The element loop of `json.decoder.JSONArray` after the first element
position: parse a value, skip whitespace, then `,` continues and `]`
closes; anything else (including a trailing comma's `]` at a value
position) is an error.  `pv` parses one value. -/
def parseArrAux (pv : List Char → Option (JVal × List Char)) :
    Nat → List Char → Option (List JVal × List Char)
  | 0, _ => none
  | n + 1, l =>
    match pv (skipWs l) with
    | none => none
    | some (v, r) =>
      match skipWs r with
      | ',' :: r2 =>
        match parseArrAux pv n r2 with
        | some (vs, r3) => some (v :: vs, r3)
        | none => none
      | ']' :: r2 => some ([v], r2)
      | _ => none

/-- The member loop of `json.decoder.JSONObject` positioned at a key:
the key must be a quoted string, then `:`, a value, and `,` (followed by
the next key) or `\x7d`; a trailing comma leaves a `\x7d` where a key is
required and is an error. -/
def parseObjAux (pv : List Char → Option (JVal × List Char)) :
    Nat → List Char → Option (List (String × JVal) × List Char)
  | 0, _ => none
  | n + 1, l =>
    match l with
    | [] => none
    | c :: r =>
      if c = '"' then
        match parseStr r with
        | none => none
        | some (key, r1) =>
          match skipWs r1 with
          | ':' :: r2 =>
            match pv (skipWs r2) with
            | none => none
            | some (v, r3) =>
              match skipWs r3 with
              | ',' :: r4 =>
                match parseObjAux pv n (skipWs r4) with
                | some (fs, r5) => some ((String.mk key, v) :: fs, r5)
                | none => none
              | '\x7d' :: r4 => some ([(String.mk key, v)], r4)
              | _ => none
          | _ => none
      else none

/-- One JSON value at the head of the (whitespace-skipped) input
(`json.scanner.py_make_scanner`): string, object, array, the constants
`null`/`true`/`false`, a number, or `NaN`/`Infinity`/`-Infinity`. -/
def parseVal : Nat → List Char → Option (JVal × List Char)
  | 0, _ => none
  | fuel + 1, l =>
    match l with
    | [] => none
    | c :: r =>
      if c = '"' then
        match parseStr r with
        | some (s, rest) => some (JVal.str (String.mk s), rest)
        | none => none
      else if c = '\x7b' then
        match skipWs r with
        | '\x7d' :: r2 => some (JVal.obj [], r2)
        | r1 =>
          match parseObjAux (parseVal fuel) fuel r1 with
          | some (fs, rest) => some (JVal.obj fs, rest)
          | none => none
      else if c = '[' then
        match skipWs r with
        | ']' :: r2 => some (JVal.arr [], r2)
        | r1 =>
          match parseArrAux (parseVal fuel) fuel r1 with
          | some (vs, rest) => some (JVal.arr vs, rest)
          | none => none
      else if startsWithL ("null".toList) l then some (JVal.null, l.drop 4)
      else if startsWithL ("true".toList) l then some (JVal.bool true, l.drop 4)
      else if startsWithL ("false".toList) l then some (JVal.bool false, l.drop 5)
      else
        match parseNum l with
        | some (lex, rest) => some (JVal.num (String.mk lex), rest)
        | none =>
          if startsWithL ("NaN".toList) l then some (JVal.num "NaN", l.drop 3)
          else if startsWithL ("Infinity".toList) l then some (JVal.num "Infinity", l.drop 8)
          else if startsWithL ("-Infinity".toList) l then some (JVal.num "-Infinity", l.drop 9)
          else none

/-- `json.loads`: one value surrounded by whitespace only, anything left
over is "Extra data".  Every nesting level and every member consumes at
least one character, so `length + 1` fuel never runs out. -/
def jsonLoads (l : List Char) : Option JVal :=
  match parseVal (l.length + 1) (skipWs l) with
  | some (v, rest) => if (skipWs rest).isEmpty then some v else none
  | none => none

/-- `"".join(ch for ch in text if ord(ch) >= 32 or ch in "\n\r\t")`
(main.py line 55, assemble.py line 57). -/
def stripCtrl (l : List Char) : List Char :=
  l.filter (fun ch => 32 ≤ ch.toNat ∨ ch = '\n' ∨ ch = '\r' ∨ ch = '\t')

/-- The prefix of `l` that ends at the last occurrence of `c`
(empty when `c` does not occur). -/
def takeToLast (c : Char) (l : List Char) : List Char :=
  (l.reverse.dropWhile (fun d => ¬ d = c)).reverse

/-- `re.search(r'(\x7b.*\x7d|\[.*\])', text, re.DOTALL)` (main.py line
56, assemble.py line 58): the match starts at the leftmost `\x7b` with a
later `\x7d` (that alternative is tried first) or `[` with a later `]`,
and the greedy `.*` under DOTALL extends it to the last such closer in
the rest of the text. -/
def findSpan : List Char → Option (List Char)
  | [] => none
  | c :: rest =>
    if c = '\x7b' ∧ '\x7d' ∈ rest then some (c :: takeToLast '\x7d' rest)
    else if c = '[' ∧ ']' ∈ rest then some (c :: takeToLast ']' rest)
    else findSpan rest

/-- `re.sub(r',\s*C', 'C', s)` for a closing character `C` (main.py
lines 59-60): non-overlapping matches are replaced left to right; after
a comma whose match attempt fails, scanning resumes one character later,
and since the buffered `\s*` characters cannot start a match, emitting
the buffer whole is equivalent.  Python's `\s` on these ASCII inputs is
exactly `isWs`. -/
def subCommaClose (close : Char) : Option (List Char) → List Char → List Char
  | none, [] => []
  | some buf, [] => buf
  | none, c :: rest =>
    if c = ',' then subCommaClose close (some [c]) rest
    else c :: subCommaClose close none rest
  | some buf, c :: rest =>
    if isWs c then subCommaClose close (some (buf ++ [c])) rest
    else if c = close then close :: subCommaClose close none rest
    else if c = ',' then buf ++ subCommaClose close (some [c]) rest
    else buf ++ c :: subCommaClose close none rest

/-- The trailing-comma repair of main.py lines 59-60 (absent from
assemble.py). -/
def commaRepair (l : List Char) : List Char :=
  subCommaClose ']' none (subCommaClose '\x7d' none l)

namespace MainPy

/-- `extract_json` of main.py lines 53-64: strip control characters,
take the regex span, repair trailing commas, parse; any exception gives
`None`. -/
def extract_json (text : List Char) : Option JVal :=
  match findSpan (stripCtrl text) with
  | some span => jsonLoads (commaRepair span)
  | none => none

end MainPy

namespace AssemblePy

/-- `extract_json` of assemble.py lines 55-63: the same pipeline without
the trailing-comma repair. -/
def extract_json (text : List Char) : Option JVal :=
  match findSpan (stripCtrl text) with
  | some span => jsonLoads span
  | none => none

end AssemblePy

/-! ## The Batch Translator's reply path (main.py lines 95-124 and 208)

`translate_sentence_batch` is modelled up to the service boundary:
`svcResponse = none` stands for any failure before the
`data.get("response", "\x7b\x7d")` text exists (connection error,
non-2xx status raised by `raise_for_status`, a body that is not JSON, a
JSON body that is not a dict — each lands in the `except` and returns
`[]`), `some text` for a reply whose `response` field is `text`.
Everything from `extract_json` on is the code's own logic.  The returned
value is whatever Python would return: `result.get("translations", [])
if result else []` — note it is NOT forced to be a list of dicts. -/

/-- `dict.get(k, d)` on a parsed JSON object: the last pair with the key
wins (as `dict` construction keeps the last duplicate). -/
def jGet (fields : List (String × JVal)) (k : String) (d : JVal) : JVal :=
  (((fields.filter (fun pr => pr.1 = k)).map (fun pr => pr.2)).getLastD d)

/-- main.py lines 95-124. -/
def translate_sentence_batch (all_sentences : List String)
    (svcResponse : Option String) : JVal :=
  if all_sentences.isEmpty then JVal.arr []
  else
    match svcResponse with
    | none => JVal.arr []
    | some text =>
      match MainPy.extract_json text.data with
      | some (JVal.obj fields) =>
        if fields.isEmpty then JVal.arr []
        else jGet fields "translations" (JVal.arr [])
      | _ => JVal.arr []

/-- `v == key` for a string `key`: Python `==` against a `str` is true
exactly for an equal `str` (every other JSON value compares unequal). -/
def isStrEq (key : String) : JVal → Bool
  | JVal.str s => s = key
  | _ => false

/-- Python's `key in v` for a string key: membership for dicts, element
equality for lists, substring for strings; a TypeError (`none`) for
numbers, booleans and `None`. -/
def pyIn (key : String) : JVal → Option Bool
  | JVal.obj fields => some (fields.any (fun pr => pr.1 = key))
  | JVal.arr elems => some (elems.any (isStrEq key))
  | JVal.str s => some (hasSubstr key.data s.data)
  | JVal.null => none
  | JVal.bool _ => none
  | JVal.num _ => none

/-- Python's `for t in v`: lists yield their elements, dicts their keys,
strings their characters; numbers, booleans and `None` raise a
TypeError (`none`). -/
def pyIter : JVal → Option (List JVal)
  | JVal.arr elems => some elems
  | JVal.obj fields => some (fields.map (fun pr => JVal.str pr.1))
  | JVal.str s => some (s.data.map (fun c => JVal.str (String.mk [c])))
  | JVal.null => none
  | JVal.bool _ => none
  | JVal.num _ => none

/-- `t[k]` for the dict entries the comprehension keeps (both keys are
present when it is read). -/
def jSub (v : JVal) (k : String) : JVal :=
  match v with
  | JVal.obj fields => jGet fields k JVal.null
  | _ => JVal.null

/-- The body of `\x7bt["en"]: t["mn"] for t in translations if "en" in t
and "mn" in t\x7d` over the iterated elements; `none` is a TypeError
escaping the comprehension. -/
def buildMappingGo : List JVal → Option (List (JVal × JVal))
  | [] => some []
  | t :: rest =>
    match pyIn "en" t with
    | none => none
    | some false => buildMappingGo rest
    | some true =>
      match pyIn "mn" t with
      | none => none
      | some false => buildMappingGo rest
      | some true =>
        match buildMappingGo rest with
        | some m => some ((jSub t "en", jSub t "mn") :: m)
        | none => none

/-- The dict comprehension of main.py line 208, applied to whatever
`translate_sentence_batch` returned.  `none` is an uncaught TypeError:
`flush_batch` has no handler, so it propagates out of
`process_book_stage1` and aborts the document. -/
def buildMapping (translations : JVal) : Option (List (JVal × JVal)) :=
  match pyIter translations with
  | some ts => buildMappingGo ts
  | none => none

/-! ## The Driver (main.py lines 286-340)

`process_single_book` is modelled as the sequence of actions it takes on
a given file-system state; a file is its size in bytes or `none` when
absent.  Nothing here writes: the claims concern which stages run. -/

namespace Driver

inductive Act where
  | skipComplete
  | removeFinal
  | assembleOnly
  | removeRefined
  | callStage1
  | stage1SkipExisting
  | stage1Extract
  | patch
  | refineAssemble
deriving DecidableEq

structure FsState where
  finalSize : Option Nat
  refinedSize : Option Nat
  structuralSize : Option Nat
deriving DecidableEq

def os_path_exists : Option Nat → Bool
  | none => false
  | some _ => true

/-- `is_valid_file` (main.py lines 286-288):
`os.path.exists(path) and os.path.getsize(path) > min_size`. -/
def is_valid_file (sz : Option Nat) (min_size : Nat) : Bool :=
  match sz with
  | none => false
  | some n => min_size < n

/-- The entry guard of `process_book_stage1` (main.py lines 189-194):
a bare `os.path.exists(cache_path)` returns immediately — extraction
only runs when the structural file is entirely absent. -/
def process_book_stage1 (structExists : Bool) : List Act :=
  Act.callStage1 ::
    (if structExists then [Act.stage1SkipExisting] else [Act.stage1Extract])

/-- `process_single_book` (main.py lines 290-340): CHECK 1 skips or
deletes the final PDF, CHECK 2 runs assembly only or deletes the
undersized refined JSON, CHECK 3 calls Stage 1 unless the structural
JSON is valid, then always patches and refines/assembles. -/
def process_single_book (fs : FsState) : List Act :=
  if is_valid_file fs.finalSize 10000 then [Act.skipComplete]
  else
    (if os_path_exists fs.finalSize then [Act.removeFinal] else []) ++
      (if is_valid_file fs.refinedSize 1000 then [Act.assembleOnly]
       else
         (if os_path_exists fs.refinedSize then [Act.removeRefined] else []) ++
           ((if is_valid_file fs.structuralSize 1000 then []
             else process_book_stage1 (os_path_exists fs.structuralSize)) ++
             [Act.patch, Act.refineAssemble]))

end Driver

/-! ## Theorems -/

theorem noPat_cons {c : Char} {l : List Char} (h : noPat (c :: l) = true) :
    noPat l = true := by
  simp only [noPat, Bool.and_eq_true] at h
  exact h.2

theorem headIsWs_append {x y : List Char} (hx : x ≠ []) :
    headIsWs (x ++ y) = headIsWs x := by
  cases x with
  | nil => exact absurd rfl hx
  | cons c rest => rfl

theorem headIsWs_append_take : ∀ (x y : List Char),
    headIsWs (x ++ y.take 1) = headIsWs (x ++ y)
  | [], [] => rfl
  | [], _ :: _ => rfl
  | _ :: _, _ => rfl

theorem noPat_append_left : ∀ {a b : List Char}, noPat (a ++ b) = true →
    noPat a = true
  | [], _, _ => rfl
  | c :: a2, b, h => by
    simp only [List.cons_append, noPat, Bool.and_eq_true] at h ⊢
    refine ⟨?_, noPat_append_left h.2⟩
    cases a2 with
    | nil =>
      simp only [headIsWs, Bool.and_eq_true] at h ⊢
      simp only [Bool.not_eq_true']
      cases hp : isPunc c with
      | false => rfl
      | true => rfl
    | cons d rest =>
      simpa only [List.cons_append, headIsWs] using h.1

theorem noPat_append_right : ∀ {a b : List Char}, noPat (a ++ b) = true →
    noPat b = true
  | [], _, h => h
  | _ :: a2, _, h => noPat_append_right (a := a2) (noPat_cons h)

/-- Gluing two pattern-free lists: the junction must not itself be a
punctuation-whitespace pair. -/
theorem noPat_append_of : ∀ {a b : List Char}, noPat a = true → noPat b = true →
    (isPunc (a.getLastD ' ') = true → headIsWs b = false) →
    noPat (a ++ b) = true
  | [], b, _, hb, _ => hb
  | [x], b, _, hb, hj => by
    simp only [List.cons_append, List.nil_append, noPat, Bool.and_eq_true]
    refine ⟨?_, hb⟩
    simp only [Bool.not_eq_true', Bool.and_eq_false_iff]
    cases hp : isPunc x with
    | false => exact Or.inl rfl
    | true => exact Or.inr (hj (by simpa using hp))
  | x :: y :: a2, b, ha, hb, hj => by
    have h1 : noPat (y :: a2) = true := noPat_cons ha
    have h2 : (!(isPunc x && headIsWs (y :: a2))) = true := by
      simp only [noPat, Bool.and_eq_true] at ha
      exact ha.1
    have ih := noPat_append_of (a := y :: a2) h1 hb (by simpa using hj)
    simp only [List.cons_append, noPat, Bool.and_eq_true] at ih ⊢
    refine ⟨?_, ih⟩
    simpa only [headIsWs] using h2

theorem noPat_infix {a b c : List Char} (h : noPat (a ++ b ++ c) = true) :
    noPat b = true :=
  noPat_append_left (noPat_append_right (a := a) (by simpa [List.append_assoc] using h))

theorem dropLast_snoc_getLastD {α : Type} (d : α) :
    ∀ {l : List α}, l ≠ [] → l.dropLast ++ [l.getLastD d] = l
  | [], h => absurd rfl h
  | [_], _ => rfl
  | a :: b :: l, _ => by
    have ih := dropLast_snoc_getLastD d (l := b :: l) (by simp)
    simpa [List.dropLast_cons₂] using ih

theorem getLastD_irrel {α : Type} (d1 d2 : α) :
    ∀ {b : List α}, b ≠ [] → b.getLastD d1 = b.getLastD d2
  | [], h => absurd rfl h
  | [_], _ => rfl
  | _ :: _ :: _, _ => rfl

theorem headD_append_left {α : Type} (d : α) {a : List α} (b : List α) (ha : a ≠ []) :
    (a ++ b).headD d = a.headD d := by
  cases a with
  | nil => exact absurd rfl ha
  | cons x xs => rfl

theorem headD_reverse {α : Type} (d : α) : ∀ (w : List α), w.reverse.headD d = w.getLastD d
  | [] => rfl
  | c :: t => by
    rw [List.reverse_cons]
    by_cases htne : t = []
    · subst htne
      rfl
    · have h1 : (t.reverse ++ [c]).headD d = t.reverse.headD d :=
        headD_append_left d [c] (by simpa using htne)
      rw [h1, headD_reverse d t, List.getLastD_cons]
      exact getLastD_irrel d c htne

theorem getLastD_append_right {α : Type} (d : α) :
    ∀ {a b : List α}, b ≠ [] → (a ++ b).getLastD d = b.getLastD d
  | [], _, _ => rfl
  | x :: xs, b, hb => by
    rw [List.cons_append, List.getLastD_cons,
      getLastD_append_right x hb, getLastD_irrel x d hb]

theorem headIsWs_eq_headD (z : List Char) : headIsWs z = isWs (z.headD 'x') := by
  cases z with
  | nil => decide
  | cons c rest => rfl

theorem getLastD_reverse {α : Type} (d : α) (w : List α) :
    w.reverse.getLastD d = w.headD d := by
  have := headD_reverse d w.reverse
  rw [List.reverse_reverse] at this
  exact this.symm

theorem headD_dropWhile_not_ws (d : Char) (z : List Char)
    (h : z.dropWhile (fun c => isWs c) ≠ []) :
    isWs ((z.dropWhile (fun c => isWs c)).headD d) = false := by
  have hh := List.head?_dropWhile_not (fun c => isWs c) z
  cases hz : z.dropWhile (fun c => isWs c) with
  | nil => exact absurd hz h
  | cons a t =>
    rw [hz] at hh
    simpa using hh

theorem dropWhile_ws_eq_self {z : List Char} (h : headIsWs z = false) :
    z.dropWhile (fun c => isWs c) = z := by
  cases z with
  | nil => rfl
  | cons c rest =>
    simp only [headIsWs] at h
    simp [List.dropWhile_cons, h]

/-- `x` decomposes as leading whitespace, `pyStrip x`, trailing whitespace. -/
theorem pyStrip_parts (x : List Char) :
    x = x.takeWhile (fun c => isWs c) ++
      (pyStrip x ++ ((x.dropWhile (fun c => isWs c)).reverse.takeWhile (fun c => isWs c)).reverse) := by
  have h2 := List.takeWhile_append_dropWhile (p := fun c => isWs c)
    (l := (x.dropWhile (fun c => isWs c)).reverse)
  have h3 := congrArg List.reverse h2
  rw [List.reverse_append, List.reverse_reverse] at h3
  simp only [pyStrip]
  conv_lhs => rw [← List.takeWhile_append_dropWhile (p := fun c => isWs c) (l := x)]
  rw [h3]

theorem noPat_pyStrip {x : List Char} (h : noPat x = true) :
    noPat (pyStrip x) = true := by
  have hd := pyStrip_parts x
  rw [hd] at h
  exact noPat_append_left (noPat_append_right (a := x.takeWhile (fun c => isWs c)) h)

theorem pyStrip_ne_nil_parts {x : List Char} (h : pyStrip x ≠ []) :
    (x.dropWhile (fun c => isWs c)).reverse.dropWhile (fun c => isWs c) ≠ [] := by
  intro hw
  exact h (by simp [pyStrip, hw])

theorem pyStrip_head_not_ws {x : List Char} (h : pyStrip x ≠ []) :
    headIsWs (pyStrip x) = false := by
  have hw : (x.dropWhile (fun c => isWs c)).reverse.dropWhile (fun c => isWs c) ≠ [] :=
    pyStrip_ne_nil_parts h
  have hy : x.dropWhile (fun c => isWs c) ≠ [] := by
    intro hy
    rw [hy] at hw
    exact hw rfl
  rw [pyStrip, headIsWs_eq_headD, headD_reverse]
  have h2 := List.takeWhile_append_dropWhile (p := fun c => isWs c)
    (l := (x.dropWhile (fun c => isWs c)).reverse)
  rw [show ((x.dropWhile (fun c => isWs c)).reverse.dropWhile (fun c => isWs c)).getLastD 'x'
      = ((x.dropWhile (fun c => isWs c)).reverse).getLastD 'x' from by
    conv_rhs => rw [← h2]
    exact (getLastD_append_right 'x' hw).symm]
  rw [getLastD_reverse]
  exact headD_dropWhile_not_ws 'x' x hy

theorem pyStrip_last_not_ws {x : List Char} (h : pyStrip x ≠ []) :
    isWs ((pyStrip x).getLastD 'x') = false := by
  have hw : (x.dropWhile (fun c => isWs c)).reverse.dropWhile (fun c => isWs c) ≠ [] :=
    pyStrip_ne_nil_parts h
  rw [pyStrip, getLastD_reverse]
  exact headD_dropWhile_not_ws 'x' _ hw

theorem pyStrip_idem (x : List Char) : pyStrip (pyStrip x) = pyStrip x := by
  by_cases h : pyStrip x = []
  · rw [h]
    rfl
  · have h1 : (pyStrip x).dropWhile (fun c => isWs c) = pyStrip x :=
      dropWhile_ws_eq_self (pyStrip_head_not_ws h)
    have h2 : (pyStrip x).reverse.dropWhile (fun c => isWs c) = (pyStrip x).reverse := by
      refine dropWhile_ws_eq_self ?_
      rw [headIsWs_eq_headD, headD_reverse]
      exact pyStrip_last_not_ws h
    show ((((pyStrip x).dropWhile _).reverse.dropWhile _)).reverse = pyStrip x
    rw [h1, h2, List.reverse_reverse]

theorem pyStrip_snoc_nonws {a : Char} (ha : isWs a = false) (x : List Char) :
    pyStrip (x ++ [a]) = x.dropWhile (fun c => isWs c) ++ [a] := by
  have h1 : (x ++ [a]).dropWhile (fun c => isWs c) = x.dropWhile (fun c => isWs c) ++ [a] := by
    rw [List.dropWhile_append]
    by_cases hx : (x.dropWhile (fun c => isWs c)).isEmpty
    · rw [if_pos hx]
      have : x.dropWhile (fun c => isWs c) = [] := by simpa [List.isEmpty_iff] using hx
      simp [this, List.dropWhile_cons, ha]
    · rw [if_neg hx]
  show (((x ++ [a]).dropWhile _).reverse.dropWhile _).reverse = _
  rw [h1, List.reverse_append]
  have h2 : ([a].reverse ++ (x.dropWhile (fun c => isWs c)).reverse).dropWhile (fun c => isWs c)
      = [a].reverse ++ (x.dropWhile (fun c => isWs c)).reverse := by
    refine dropWhile_ws_eq_self ?_
    simp only [List.reverse_cons, List.reverse_nil, List.nil_append, List.cons_append, headIsWs]
    exact ha
  rw [h2]
  simp

/-! ### Last-word analysis via `splitOnP` -/

theorem modifyHead_modifyHead {α : Type} (f g : α → α) (l : List α) :
    List.modifyHead f (List.modifyHead g l) = List.modifyHead (fun x => f (g x)) l := by
  cases l <;> simp

theorem modifyHead_nil_append {α : Type} (l : List (List α)) :
    List.modifyHead (fun w => [] ++ w) l = l := by
  cases l <;> simp

theorem getLastD_cons_of_ne {α : Type} (d : α) (w : α) {t : List α} (ht : t ≠ []) :
    (w :: t).getLastD d = t.getLastD d := by
  rw [List.getLastD_cons]
  exact getLastD_irrel w d ht

theorem splitOnP_append (p : Char → Bool) : ∀ (a b : List Char),
    List.splitOnP p (a ++ b) =
      (List.splitOnP p a).dropLast ++
        List.modifyHead (fun w => (List.splitOnP p a).getLastD [] ++ w) (List.splitOnP p b)
  | [], b => by
    rw [List.nil_append, List.splitOnP_nil]
    show List.splitOnP p b = [] ++ List.modifyHead (fun w => [] ++ w) (List.splitOnP p b)
    rw [List.nil_append, modifyHead_nil_append]
  | x :: a2, b => by
    rw [List.cons_append, List.splitOnP_cons, List.splitOnP_cons]
    by_cases hx : p x = true
    · rw [if_pos hx, if_pos hx, splitOnP_append p a2 b]
      obtain ⟨h, t, hsa⟩ : ∃ h t, List.splitOnP p a2 = h :: t := by
        cases hq : List.splitOnP p a2 with
        | nil => exact absurd hq (List.splitOnP_ne_nil p a2)
        | cons h t => exact ⟨h, t, rfl⟩
      rw [hsa]
      rfl
    · rw [if_neg hx, if_neg hx, splitOnP_append p a2 b]
      obtain ⟨h, t, hsa⟩ : ∃ h t, List.splitOnP p a2 = h :: t := by
        cases hq : List.splitOnP p a2 with
        | nil => exact absurd hq (List.splitOnP_ne_nil p a2)
        | cons h t => exact ⟨h, t, rfl⟩
      rw [hsa]
      cases t with
      | nil =>
        simp only [List.dropLast_single, List.nil_append, List.modifyHead_cons,
          List.getLastD_cons, modifyHead_modifyHead]
        rfl
      | cons t1 t2 =>
        simp only [List.modifyHead_cons, List.dropLast_cons₂, List.cons_append,
          List.getLastD_cons]
  termination_by a _ => a.length

theorem splitOnP_all_true (p : Char → Bool) : ∀ {a : List Char}, (∀ x ∈ a, p x = true) →
    List.splitOnP p a = List.replicate (a.length + 1) []
  | [], _ => by rw [List.splitOnP_nil]; rfl
  | x :: a2, h => by
    rw [List.splitOnP_cons, if_pos (h x (by simp)),
      splitOnP_all_true p (fun y hy => h y (by simp [hy]))]
    rfl

theorem getLastD_replicate_nil : ∀ (n : Nat),
    (List.replicate (n + 1) ([] : List Char)).getLastD [] = []
  | 0 => rfl
  | n + 1 => by
    rw [List.replicate_succ, getLastD_cons_of_ne _ _ (by simp [List.replicate_succ])]
    exact getLastD_replicate_nil n

theorem filter_replicate_nil (n : Nat) :
    List.filter (fun w => w ≠ []) (List.replicate n ([] : List Char)) = [] := by
  rw [List.filter_replicate]
  simp

theorem dropLast_replicate_succ {α : Type} : ∀ (n : Nat) (x : α),
    (List.replicate (n + 1) x).dropLast = List.replicate n x
  | 0, _ => rfl
  | n + 1, x => by
    rw [List.replicate_succ]
    conv_lhs => rw [List.replicate_succ]
    rw [List.dropLast_cons₂, ← List.replicate_succ, dropLast_replicate_succ n x,
      List.replicate_succ]

theorem pyWords_dropWhile_ws (z : List Char) :
    pyWords (z.dropWhile (fun c => isWs c)) = pyWords z := by
  conv_rhs => rw [← List.takeWhile_append_dropWhile (p := fun c => isWs c) (l := z)]
  simp only [pyWords]
  rw [splitOnP_append,
    splitOnP_all_true (fun c => isWs c) (fun x hx => List.mem_takeWhile_imp hx),
    getLastD_replicate_nil, dropLast_replicate_succ, modifyHead_nil_append,
    List.filter_append, filter_replicate_nil, List.nil_append]

theorem punc_not_ws {ch : Char} (h : isPunc ch = true) : isWs ch = false := by
  simp only [isPunc, decide_eq_true_eq] at h
  rcases h with h | h | h <;> subst h <;> decide

theorem abbrev_no_punc : ∀ w ∈ abbreviations, ∀ ch ∈ w, isPunc ch = false := by decide

theorem nil_not_abbrev : ([] : List Char) ∉ abbreviations := by decide

theorem getLastD_splitOnP_snoc {p : Char → Bool} {a : Char} (ha : p a = false)
    (x : List Char) :
    (List.splitOnP p (x ++ [a])).getLastD [] = (List.splitOnP p x).getLastD [] ++ [a] := by
  rw [splitOnP_append]
  have hb : List.splitOnP p [a] = [[a]] := by
    rw [List.splitOnP_cons, if_neg (by simp [ha]), List.splitOnP_nil]
    rfl
  rw [hb, List.modifyHead_cons, getLastD_append_right [] (by simp)]
  rfl

theorem getLastD_filter_cons_of (w : List Char) {t : List (List Char)}
    (ht : List.filter (fun v => v ≠ []) t ≠ []) :
    (List.filter (fun v => v ≠ []) (w :: t)).getLastD [] =
      (List.filter (fun v => v ≠ []) t).getLastD [] := by
  rw [List.filter_cons]
  by_cases hw : w = []
  · rw [if_neg (by simp [hw])]
  · rw [if_pos (by simpa using hw), getLastD_cons_of_ne _ _ ht]

theorem filter_cons_ne_nil (w : List Char) {t : List (List Char)}
    (ht : List.filter (fun v => v ≠ []) t ≠ []) :
    List.filter (fun v => v ≠ []) (w :: t) ≠ [] := by
  rw [List.filter_cons]
  by_cases hw : w = []
  · rw [if_neg (by simp [hw])]
    exact ht
  · rw [if_pos (by simpa using hw)]
    simp

/-- Core lemma for the abbreviation check after a suppressed split: gluing
the accumulated sentence (which is empty or ends in terminal punctuation)
in front of a chunk cannot turn the last word into an abbreviation. -/
theorem lastWordOf_append_notin {c chunk : List Char}
    (hc : c = [] ∨ (c ≠ [] ∧ isPunc (c.getLastD ' ') = true))
    (h : lastWordOf chunk ∉ abbreviations) :
    lastWordOf (c ++ chunk) ∉ abbreviations := by
  rcases hc with hc | ⟨hne, hq⟩
  · rw [hc, List.nil_append]
    exact h
  · set q := c.getLastD ' ' with hqdef
    have hqws : isWs q = false := punc_not_ws hq
    have hcdec : c.dropLast ++ [q] = c := dropLast_snoc_getLastD ' ' hne
    have hlastC : (List.splitOnP (fun ch => isWs ch) c).getLastD [] =
        (List.splitOnP (fun ch => isWs ch) c.dropLast).getLastD [] ++ [q] := by
      conv_lhs => rw [← hcdec]
      exact getLastD_splitOnP_snoc (by simp [hqws]) c.dropLast
    obtain ⟨h1, t, hsc⟩ : ∃ h1 t, List.splitOnP (fun ch => isWs ch) chunk = h1 :: t := by
      cases hq2 : List.splitOnP (fun ch => isWs ch) chunk with
      | nil => exact absurd hq2 (List.splitOnP_ne_nil _ chunk)
      | cons h1 t => exact ⟨h1, t, rfl⟩
    intro habs
    have hsplit : pyWords (c ++ chunk) =
        List.filter (fun w => w ≠ []) (List.splitOnP (fun ch => isWs ch) c).dropLast ++
          List.filter (fun w => w ≠ [])
            (((List.splitOnP (fun ch => isWs ch) c).getLastD [] ++ h1) :: t) := by
      rw [pyWords, splitOnP_append, hsc, List.modifyHead_cons, List.filter_append]
    by_cases hft : List.filter (fun w => w ≠ []) t = []
    · -- the last word is the glued word, which contains the punctuation mark q
      have hglue : (List.splitOnP (fun ch => isWs ch) c).getLastD [] ++ h1 ≠ [] := by
        rw [hlastC]
        simp
      have hlw : lastWordOf (c ++ chunk) =
          (List.splitOnP (fun ch => isWs ch) c).getLastD [] ++ h1 := by
        rw [lastWordOf, hsplit]
        rw [List.filter_cons, if_pos (decide_eq_true hglue), hft]
        rw [getLastD_append_right [] (by simp)]
        rfl
      have hqmem : q ∈ lastWordOf (c ++ chunk) := by
        rw [hlw, hlastC]
        simp
      have hnp := abbrev_no_punc _ habs q hqmem
      rw [hnp] at hq
      exact Bool.noConfusion hq
    · -- the last word is unchanged from the chunk alone
      have hlw1 : lastWordOf (c ++ chunk) =
          (List.filter (fun w => w ≠ []) t).getLastD [] := by
        rw [lastWordOf, hsplit,
          getLastD_append_right [] (filter_cons_ne_nil _ hft),
          getLastD_filter_cons_of _ hft]
      have hlw2 : lastWordOf chunk = (List.filter (fun w => w ≠ []) t).getLastD [] := by
        rw [lastWordOf, pyWords, hsc, getLastD_filter_cons_of _ hft]
      rw [hlw1, ← hlw2] at habs
      exact h habs

/-! ### Behaviour of the splitter scanner -/

theorem noPat_single (c : Char) : noPat [c] = true := by
  simp [noPat, headIsWs]

theorem noPat_snoc_of {xs : List Char} {c : Char} (h : noPat xs = true)
    (hj : isPunc (xs.getLastD ' ') = true → isWs c = false) :
    noPat (xs ++ [c]) = true := by
  exact noPat_append_of h (noPat_single c) (fun hp => hj hp)

theorem reSplitGo_skip_nonws {l : List Char} (h : headIsWs l = false) (acc : List Char) :
    reSplitGo true l acc = reSplitGo false l acc := by
  cases l with
  | nil => rfl
  | cons c rest =>
    have hc : isWs c = false := h
    simp only [reSplitGo]
    simp [hc]

theorem scan_plain : ∀ (s rest acc : List Char), noPat (s ++ rest.take 1) = true →
    reSplitGo false (s ++ rest) acc = reSplitGo false rest (s.reverse ++ acc)
  | [], rest, acc, _ => by simp
  | c :: s2, rest, acc, h => by
    have h1 : (!(isPunc c && headIsWs (s2 ++ rest.take 1))) = true := by
      have h' := h
      simp only [List.cons_append, noPat, Bool.and_eq_true] at h'
      exact h'.1
    have h2 : noPat (s2 ++ rest.take 1) = true := noPat_cons (by simpa using h)
    rw [List.cons_append]
    simp only [reSplitGo]
    rw [if_neg (by simp)]
    by_cases hc : isPunc c = true ∧ headIsWs (s2 ++ rest) = true
    · exfalso
      rw [headIsWs_append_take] at h1
      rcases hc with ⟨hp, hw⟩
      rw [hp, hw] at h1
      simp at h1
    · rw [if_neg hc, scan_plain s2 rest (c :: acc) h2]
      simp [List.append_assoc]

theorem scan_end {s : List Char} (h : noPat s = true) (acc : List Char) :
    reSplitGo false s acc = [acc.reverse ++ s] := by
  have h0 : noPat (s ++ List.take 1 []) = true := by simpa using h
  have h1 := scan_plain s [] acc h0
  rw [List.append_nil] at h1
  rw [h1]
  show [(s.reverse ++ acc).reverse] = [acc.reverse ++ s]
  rw [List.reverse_append, List.reverse_reverse]

theorem scan_sentence {s : List Char} {p : Char} {rest : List Char}
    (hs : noPat s = true) (hp : isPunc p = true) (hr : headIsWs rest = false)
    (acc : List Char) :
    reSplitGo false (s ++ p :: ' ' :: rest) acc =
      (acc.reverse ++ s) :: [p] :: reSplitGo false rest [] := by
  have hsp : noPat (s ++ (p :: ' ' :: rest).take 1) = true := by
    show noPat (s ++ [p]) = true
    exact noPat_snoc_of hs (fun _ => punc_not_ws hp)
  rw [scan_plain s (p :: ' ' :: rest) acc hsp]
  have hws : isWs ' ' = true := by decide
  have hstep : reSplitGo false (p :: ' ' :: rest) (s.reverse ++ acc) =
      (s.reverse ++ acc).reverse :: [p] :: reSplitGo true (' ' :: rest) [] := by
    simp only [reSplitGo]
    rw [if_neg (by simp), if_pos ⟨hp, hws⟩]
  have hskip2 : reSplitGo true (' ' :: rest) [] = reSplitGo false rest [] := by
    simp only [reSplitGo]
    rw [if_pos ⟨trivial, hws⟩]
    exact reSplitGo_skip_nonws hr []
  rw [hstep, hskip2, List.reverse_append, List.reverse_reverse]

theorem reSplitGo_shape : ∀ (input : List Char) (skip : Bool) (acc : List Char)
    (first : Bool),
    noPat acc.reverse = true →
    (acc ≠ [] → isPunc (acc.headD ' ') = true → headIsWs input = false) →
    (skip = true → acc = []) →
    (first = false → headIsWs acc.reverse = false) →
    (first = false → acc = [] → skip = true) →
    RawShape first (reSplitGo skip input acc)
  | [], skip, acc, first, h1, _, _, h4, _ => by
    simp only [reSplitGo]
    exact RawShape.last first acc.reverse h1 h4
  | c :: rest, skip, acc, first, h1, h2, h3, h4, h5 => by
    simp only [reSplitGo]
    by_cases hskip : skip = true ∧ isWs c = true
    · rw [if_pos hskip]
      have hacc : acc = [] := h3 hskip.1
      subst hacc
      refine reSplitGo_shape rest true [] first rfl ?_ ?_ h4 ?_
      · intro hne
        exact absurd rfl hne
      · intro _
        rfl
      · intro _ _
        rfl
    · rw [if_neg hskip]
      by_cases hmatch : isPunc c = true ∧ headIsWs rest = true
      · rw [if_pos hmatch]
        refine RawShape.step first acc.reverse c _ h1 h4 hmatch.1 ?_
        refine reSplitGo_shape rest true [] false rfl ?_ ?_ ?_ ?_
        · intro hne
          exact absurd rfl hne
        · intro _
          rfl
        · intro _
          rfl
        · intro _ _
          rfl
      · rw [if_neg hmatch]
        refine reSplitGo_shape rest false (c :: acc) first ?_ ?_ ?_ ?_ ?_
        · rw [List.reverse_cons]
          refine noPat_snoc_of h1 ?_
          intro hpunc
          rw [getLastD_reverse] at hpunc
          cases acc with
          | nil => exact absurd hpunc (by decide)
          | cons a t => exact h2 (by simp) hpunc
        · intro _ hp
          cases hw : headIsWs rest with
          | false => rfl
          | true => exact absurd ⟨hp, hw⟩ hmatch
        · intro hfalse
          exact Bool.noConfusion hfalse
        · intro hf
          rw [List.reverse_cons]
          cases acc with
          | nil =>
            have hsk : skip = true := h5 hf rfl
            have hwc : isWs c = false := by
              cases hwc : isWs c with
              | false => rfl
              | true => exact absurd ⟨hsk, hwc⟩ hskip
            simpa [headIsWs] using hwc
          | cons a t =>
            rw [headIsWs_append (by simp)]
            exact h4 hf
        · intro _ habs
          exact List.noConfusion habs

theorem reSplit_shape (t : List Char) : RawShape true (reSplit t) := by
  refine reSplitGo_shape t false [] true rfl ?_ ?_ ?_ ?_
  · intro hne
    exact absurd rfl hne
  · intro h
    exact Bool.noConfusion h
  · intro h
    exact Bool.noConfusion h
  · intro h
    exact Bool.noConfusion h

theorem rawShape_ne_nil {f : Bool} {raw : List (List Char)} (h : RawShape f raw) :
    raw ≠ [] := by
  cases h <;> simp

theorem rawShape_odd {f : Bool} {raw : List (List Char)} (h : RawShape f raw) :
    raw.length % 2 = 1 := by
  induction h with
  | last _ _ _ _ => rfl
  | step _ s p rest _ _ _ _ ih =>
    simp only [List.length_cons]
    omega

theorem assembleTail_cons₂ {rest : List (List Char)} (hne : rest ≠ [])
    (s pp : List Char) (st : List (List Char) × List Char) :
    assembleTail (s :: pp :: rest) st = assembleTail rest st := by
  have hlast : (s :: pp :: rest).getLastD [] = rest.getLastD [] := by
    rw [List.getLastD_cons, List.getLastD_cons]
    exact getLastD_irrel pp [] hne
  rw [assembleTail, assembleTail, hlast]

theorem mem_dropLast_filter {p : List Char → Bool} :
    ∀ {K : List (List Char)} {s : List Char},
    s ∈ (K.filter p).dropLast → s ∈ K.dropLast
  | [], s, h => by simp at h
  | a :: K2, s, h => by
    rw [List.filter_cons] at h
    by_cases hK2 : K2 = []
    · subst hK2
      by_cases hp : p a = true
      · rw [if_pos hp] at h
        simp at h
      · rw [if_neg hp] at h
        simp at h
    · have hsub : s ∈ K2.dropLast → s ∈ (a :: K2).dropLast := by
        intro hmem
        cases K2 with
        | nil => exact absurd rfl hK2
        | cons b K3 =>
          rw [List.dropLast_cons₂]
          exact List.mem_cons_of_mem a hmem
      by_cases hp : p a = true
      · rw [if_pos hp] at h
        by_cases hf : K2.filter p = []
        · rw [hf] at h
          simp at h
        · cases hfil : K2.filter p with
          | nil => exact absurd hfil hf
          | cons b K3 =>
            rw [hfil, List.dropLast_cons₂] at h
            rcases List.mem_cons.mp h with h | h
            · subst h
              cases K2 with
              | nil => exact absurd rfl hK2
              | cons b2 K4 =>
                rw [List.dropLast_cons₂]
                exact List.mem_cons_self s _
            · exact hsub (mem_dropLast_filter (by rw [hfil]; exact h))
      · rw [if_neg hp] at h
        exact hsub (mem_dropLast_filter h)

theorem noPat_glue {cur s : List Char} {p : Char}
    (hc : noPat cur = true) (hs : noPat s = true)
    (hj : cur ≠ [] → headIsWs s = false) (hp : isPunc p = true) :
    noPat (cur ++ s ++ [p]) = true := by
  refine noPat_snoc_of ?_ (fun _ => punc_not_ws hp)
  refine noPat_append_of hc hs ?_
  intro hpunc
  by_cases hcur : cur = []
  · rw [hcur] at hpunc
    exact absurd hpunc (by decide)
  · exact hj hcur

/-- The sentence emitted by an iteration of the pair loop satisfies all
the output invariants. -/
theorem emitted_good {cur s : List Char} {p : Char}
    (hc : noPat cur = true) (hs : noPat s = true)
    (hj : cur ≠ [] → headIsWs s = false) (hp : isPunc p = true)
    (hcp : cur ≠ [] → isPunc (cur.getLastD ' ') = true)
    (habb : (pyWords s).getLastD [] ∉ abbreviations) :
    SentBasic (pyStrip (cur ++ s ++ [p])) ∧ PuncEnd (pyStrip (cur ++ s ++ [p])) ∧
      LWok (pyStrip (cur ++ s ++ [p])) := by
  have hnp : noPat (cur ++ s ++ [p]) = true := noPat_glue hc hs hj hp
  have hwsp : isWs p = false := punc_not_ws hp
  have hstrip : pyStrip (cur ++ s ++ [p]) =
      (cur ++ s).dropWhile (fun c => isWs c) ++ [p] := pyStrip_snoc_nonws hwsp (cur ++ s)
  refine ⟨⟨noPat_pyStrip hnp, pyStrip_idem _⟩, ?_, ?_⟩
  · rw [hstrip]
    exact ⟨by simp, by rw [List.getLastD_concat]; exact hp⟩
  · rw [LWok, hstrip, List.dropLast_concat]
    have h1 : lastWordOf ((cur ++ s).dropWhile (fun c => isWs c)) = lastWordOf (cur ++ s) := by
      rw [lastWordOf, lastWordOf, pyWords_dropWhile_ws]
    rw [h1]
    refine lastWordOf_append_notin ?_ habb
    by_cases hcur : cur = []
    · exact Or.inl hcur
    · exact Or.inr ⟨hcur, hcp hcur⟩

/-- Main loop invariant of `split_sentences`: starting from an
accumulated current sentence that is pattern-free and punctuation-ended,
the loop plus the final remainder append produce only invariant-satisfying
sentences. -/
theorem processA {first : Bool} {raw : List (List Char)} (hsh : RawShape first raw) :
    ∀ (sents : List (List Char)) (cur : List Char),
    noPat cur = true → (cur ≠ [] → isPunc (cur.getLastD ' ') = true) →
    (cur ≠ [] → first = false) →
    ∃ K, processRaw sents cur raw = sents ++ K ∧ K ≠ [] ∧
      (∀ w ∈ K, SentBasic w) ∧ (∀ w ∈ K.dropLast, PuncEnd w ∧ LWok w) := by
  induction hsh with
  | last f s hnp hw =>
    intro sents cur hc hcp hcf
    by_cases hcur : cur = []
    · subst hcur
      refine ⟨[pyStrip s], ?_, by simp, ?_, by simp⟩
      · rfl
      · intro w hw2
        rw [List.mem_singleton] at hw2
        subst hw2
        exact ⟨noPat_pyStrip hnp, pyStrip_idem s⟩
    · refine ⟨[pyStrip (cur ++ s)], ?_, by simp, ?_, by simp⟩
      · show assembleTail [s] ((toPairs [s]).foldl splitStep (sents, cur)) = _
        rw [show toPairs [s] = [] from rfl, List.foldl_nil, assembleTail, if_pos hcur]
        rfl
      · intro w hw2
        rw [List.mem_singleton] at hw2
        subst hw2
        have hnp2 : noPat (cur ++ s) = true := by
          refine noPat_append_of hc hnp ?_
          intro _
          exact hw (hcf hcur)
        exact ⟨noPat_pyStrip hnp2, pyStrip_idem _⟩
  | step f s p rest hnp hw hp hr ih =>
    intro sents cur hc hcp hcf
    have hrw : processRaw sents cur (s :: [p] :: rest) =
        assembleTail rest ((toPairs rest).foldl splitStep (splitStep (sents, cur) (s, [p]))) := by
      rw [processRaw, show toPairs (s :: [p] :: rest) = (s, [p]) :: toPairs rest from rfl,
        List.foldl_cons]
      exact assembleTail_cons₂ (rawShape_ne_nil hr) s [p] _
    by_cases habb : (pyWords s).getLastD [] ∈ abbreviations
    · have hstep : splitStep (sents, cur) (s, [p]) = (sents, cur ++ s ++ [p]) := by
        simp only [splitStep]
        rw [if_pos habb]
      have hnp2 : noPat (cur ++ s ++ [p]) = true :=
        noPat_glue hc hnp (fun hne => hw (hcf hne)) hp
      have hend : cur ++ s ++ [p] ≠ [] → isPunc ((cur ++ s ++ [p]).getLastD ' ') = true := by
        intro _
        rw [List.getLastD_concat]
        exact hp
      obtain ⟨K, hKeq, hKne, hKb, hKs⟩ := ih sents (cur ++ s ++ [p]) hnp2 hend (fun _ => rfl)
      refine ⟨K, ?_, hKne, hKb, hKs⟩
      rw [hrw, hstep]
      exact hKeq
    · have hstep : splitStep (sents, cur) (s, [p]) =
          (sents ++ [pyStrip (cur ++ s ++ [p])], []) := by
        simp only [splitStep]
        rw [if_neg habb]
      have hem := emitted_good hc hnp (fun hne => hw (hcf hne)) hp hcp habb
      obtain ⟨K2, hK2eq, hK2ne, hK2b, hK2s⟩ :=
        ih (sents ++ [pyStrip (cur ++ s ++ [p])]) [] rfl
          (fun hne => absurd rfl hne) (fun hne => absurd rfl hne)
      refine ⟨pyStrip (cur ++ s ++ [p]) :: K2, ?_, by simp, ?_, ?_⟩
      · rw [hrw, hstep]
        rw [show assembleTail rest
              ((toPairs rest).foldl splitStep (sents ++ [pyStrip (cur ++ s ++ [p])], []))
            = processRaw (sents ++ [pyStrip (cur ++ s ++ [p])]) [] rest from rfl, hK2eq]
        simp
      · intro v hv
        rcases List.mem_cons.mp hv with hv | hv
        · subst hv
          exact hem.1
        · exact hK2b v hv
      · intro v hv
        have hKdrop : (pyStrip (cur ++ s ++ [p]) :: K2).dropLast
            = pyStrip (cur ++ s ++ [p]) :: K2.dropLast := by
          cases K2 with
          | nil => exact absurd rfl hK2ne
          | cons b K3 => rw [List.dropLast_cons₂]
        rw [hKdrop] at hv
        rcases List.mem_cons.mp hv with hv | hv
        · subst hv
          exact hem.2
        · exact hK2s v hv

theorem splitSentencesL_eq {t : List Char} (ht : t ≠ [])
    (hodd : (reSplit t).length % 2 = 1) :
    splitSentencesL t = (processRaw [] [] (reSplit t)).filter (fun s => 2 < s.length) := by
  rw [splitSentencesL, if_neg ht]
  simp only [processRaw, assembleTail, hodd]
  norm_num

theorem splitSentencesL_good (t : List Char) : Good (splitSentencesL t) := by
  by_cases ht : t = []
  · subst ht
    exact ⟨by simp [splitSentencesL], by simp [splitSentencesL]⟩
  · have hsh := reSplit_shape t
    obtain ⟨K, hKeq, hKne, hKb, hKs⟩ := processA hsh [] [] rfl
      (fun hne => absurd rfl hne) (fun hne => absurd rfl hne)
    rw [splitSentencesL_eq ht (rawShape_odd hsh), hKeq, List.nil_append]
    constructor
    · intro s hs
      rw [List.mem_filter] at hs
      exact ⟨by simpa using hs.2, hKb s hs.1⟩
    · intro s hs
      exact hKs s (mem_dropLast_filter hs)

theorem getLastD_mem {α : Type} (d : α) : ∀ {l : List α}, l ≠ [] → l.getLastD d ∈ l
  | [], h => absurd rfl h
  | [x], _ => by simp
  | x :: y :: t, _ => by
    rw [List.getLastD_cons, getLastD_irrel x d (by simp)]
    exact List.mem_cons_of_mem x (getLastD_mem d (by simp))

theorem good_head_not_ws {l : List (List Char)} (hg : Good l) {s : List Char}
    (hs : s ∈ l) : headIsWs s = false := by
  obtain ⟨hlen, _, hstrip⟩ := hg.1 s hs
  have hne : s ≠ [] := by
    intro h
    rw [h] at hlen
    simp at hlen
  have h2 := pyStrip_head_not_ws (x := s) (by rw [hstrip]; exact hne)
  rwa [hstrip] at h2

theorem good_tail {s r : List Char} {rest : List (List Char)}
    (hg : Good (s :: r :: rest)) : Good (r :: rest) := by
  constructor
  · intro v hv
    exact hg.1 v (List.mem_cons_of_mem s hv)
  · intro v hv
    refine hg.2 v ?_
    rw [List.dropLast_cons₂]
    exact List.mem_cons_of_mem s hv

theorem good_strong_head {s r : List Char} {rest : List (List Char)}
    (hg : Good (s :: r :: rest)) : PuncEnd s ∧ LWok s := by
  refine hg.2 s ?_
  rw [List.dropLast_cons₂]
  exact List.mem_cons_self s _

theorem reSplit_join : ∀ {l : List (List Char)}, Good l → l ≠ [] →
    reSplit (joinSp l) = rawOf l
  | [], _, h => absurd rfl h
  | [s], hg, _ => by
    rw [show joinSp [s] = s from rfl, show rawOf [s] = [s] from rfl, reSplit,
      scan_end (hg.1 s (by simp)).2.1 []]
    rfl
  | s :: r :: rest, hg, _ => by
    obtain ⟨⟨hne, hpunc⟩, _⟩ := good_strong_head hg
    have hnp : noPat s = true := (hg.1 s (by simp)).2.1
    have hdecomp : s.dropLast ++ [s.getLastD ' '] = s := dropLast_snoc_getLastD ' ' hne
    have hnp2 : noPat s.dropLast = true := by
      refine noPat_append_left (a := s.dropLast) (b := [s.getLastD ' ']) ?_
      rw [hdecomp]
      exact hnp
    have hjw : headIsWs (joinSp (r :: rest)) = false := by
      obtain ⟨z, hz⟩ : ∃ z, joinSp (r :: rest) = r ++ z := by
        cases rest with
        | nil => exact ⟨[], by simp [joinSp]⟩
        | cons r2 rest2 => exact ⟨' ' :: joinSp (r2 :: rest2), rfl⟩
      have hr3 : 2 < r.length := (hg.1 r (by simp)).1
      have hrne : r ≠ [] := by
        intro h
        rw [h] at hr3
        simp at hr3
      rw [hz, headIsWs_append hrne]
      exact good_head_not_ws hg (by simp)
    rw [show joinSp (s :: r :: rest) = s ++ ' ' :: joinSp (r :: rest) from rfl]
    conv_lhs => rw [← hdecomp]
    rw [reSplit, show (s.dropLast ++ [s.getLastD ' ']) ++ ' ' :: joinSp (r :: rest)
        = s.dropLast ++ (s.getLastD ' ') :: ' ' :: joinSp (r :: rest) from by simp,
      scan_sentence hnp2 hpunc hjw [], List.reverse_nil, List.nil_append,
      show rawOf (s :: r :: rest)
        = s.dropLast :: [s.getLastD ' '] :: rawOf (r :: rest) from rfl]
    have ih := reSplit_join (good_tail hg) (l := r :: rest) (by simp)
    rw [reSplit] at ih
    rw [ih]

theorem fold_rawOf : ∀ {l : List (List Char)}, Good l → l ≠ [] →
    ∀ (pre : List (List Char)),
    (toPairs (rawOf l)).foldl splitStep (pre, []) = (pre ++ l.dropLast, [])
  | [], _, h, _ => absurd rfl h
  | [s], _, _, pre => by
    rw [show rawOf [s] = [s] from rfl, show toPairs [s] = [] from rfl, List.foldl_nil]
    simp
  | s :: r :: rest, hg, _, pre => by
    obtain ⟨⟨hne, hpunc⟩, hlw⟩ := good_strong_head hg
    have hstrip : pyStrip s = s := (hg.1 s (by simp)).2.2
    have hdecomp : s.dropLast ++ [s.getLastD ' '] = s := dropLast_snoc_getLastD ' ' hne
    rw [show rawOf (s :: r :: rest)
        = s.dropLast :: [s.getLastD ' '] :: rawOf (r :: rest) from rfl,
      show toPairs (s.dropLast :: [s.getLastD ' '] :: rawOf (r :: rest))
        = (s.dropLast, [s.getLastD ' ']) :: toPairs (rawOf (r :: rest)) from rfl,
      List.foldl_cons]
    have hstep : splitStep (pre, []) (s.dropLast, [s.getLastD ' ']) = (pre ++ [s], []) := by
      simp only [splitStep]
      rw [if_neg (show (pyWords s.dropLast).getLastD [] ∉ abbreviations from hlw),
        List.nil_append, hdecomp, hstrip]
    rw [hstep, fold_rawOf (good_tail hg) (by simp) (pre ++ [s]), List.dropLast_cons₂]
    simp

theorem rawOf_odd : ∀ {l : List (List Char)}, l ≠ [] → (rawOf l).length % 2 = 1
  | [], h => absurd rfl h
  | [_], _ => rfl
  | s :: r :: rest, _ => by
    have ih := rawOf_odd (l := r :: rest) (by simp)
    rw [show rawOf (s :: r :: rest)
        = s.dropLast :: [s.getLastD ' '] :: rawOf (r :: rest) from rfl]
    simp only [List.length_cons]
    omega

theorem rawOf_getLastD : ∀ {l : List (List Char)}, l ≠ [] →
    (rawOf l).getLastD [] = l.getLastD []
  | [], h => absurd rfl h
  | [_], _ => rfl
  | s :: r :: rest, _ => by
    have ih := rawOf_getLastD (l := r :: rest) (by simp)
    rw [show rawOf (s :: r :: rest)
        = s.dropLast :: [s.getLastD ' '] :: rawOf (r :: rest) from rfl]
    have hrne : rawOf (r :: rest) ≠ [] := by
      cases rest with
      | nil => simp [rawOf]
      | cons r2 rest2 => simp [rawOf]
    rw [List.getLastD_cons, List.getLastD_cons, getLastD_irrel [s.getLastD ' '] [] hrne, ih]
    conv_rhs => rw [List.getLastD_cons]
    exact getLastD_irrel [] s (by simp)

/-- Re-segmenting the space-joined output of the segmenter reproduces it. -/
theorem good_roundtrip {l : List (List Char)} (hg : Good l) :
    splitSentencesL (joinSp l) = l := by
  by_cases hl : l = []
  · subst hl
    rfl
  · have hraw := reSplit_join hg hl
    have hodd : (reSplit (joinSp l)).length % 2 = 1 := by
      rw [hraw]
      exact rawOf_odd hl
    have hjne : joinSp l ≠ [] := by
      cases l with
      | nil => exact absurd rfl hl
      | cons s rest =>
        have hs3 : 2 < s.length := (hg.1 s (by simp)).1
        have hsne : s ≠ [] := by
          intro h
          rw [h] at hs3
          simp at hs3
        cases rest with
        | nil => simpa [joinSp] using hsne
        | cons r rest2 => simp [joinSp]
    rw [splitSentencesL_eq hjne hodd, hraw, processRaw, fold_rawOf hg hl [], assembleTail,
      if_neg (by simp), rawOf_getLastD hl]
    have hstriplast : pyStrip (l.getLastD []) = l.getLastD [] :=
      (hg.1 _ (getLastD_mem [] hl)).2.2
    rw [hstriplast, List.nil_append, dropLast_snoc_getLastD [] hl]
    refine List.filter_eq_self.mpr ?_
    intro a ha
    exact decide_eq_true (hg.1 a ha).1

theorem ensureTerminal_spec (s : String) :
    ensureTerminal s = "" ∨ endsTerminal (ensureTerminal s) = true := by
  rw [ensureTerminal]
  by_cases h : s ≠ "" ∧ endsTerminal s = false
  · rw [if_pos h]
    right
    rw [endsTerminal, String.data_append s "."]
    rw [show ("." : String).data = ['.'] from rfl, List.getLastD_concat]
    decide
  · rw [if_neg h]
    push_neg at h
    by_cases hs : s = ""
    · exact Or.inl hs
    · right
      cases he : endsTerminal s with
      | false => exact absurd he (h hs)
      | true => rfl

theorem outImagePaths_append (a b : List OutBlock) :
    outImagePaths (a ++ b) = outImagePaths a ++ outImagePaths b :=
  List.filterMap_append a b _

theorem outTextEns_append (a b : List OutBlock) :
    outTextEns (a ++ b) = outTextEns a ++ outTextEns b :=
  List.filterMap_append a b _

theorem outSegs_append (a b : List OutBlock) :
    outSegs (a ++ b) = outSegs a ++ outSegs b := by
  rw [outSegs, outSegs, outSegs, List.map_append, List.flatten_append]

theorem flush_batch_nil (trans : List String → List (String × String))
    (pbs : List PendingBlock) (fs : List OutBlock) :
    flush_batch trans [] pbs fs = fs := by
  rw [flush_batch, if_pos rfl]

theorem flush_batch_images (trans : List String → List (String × String))
    (ps : List String) (pbs : List PendingBlock) (fs : List OutBlock) :
    outImagePaths (flush_batch trans ps pbs fs) = outImagePaths fs := by
  rw [flush_batch]
  by_cases hps : ps = []
  · rw [if_pos hps]
  · rw [if_neg hps, outImagePaths_append]
    have hmap : outImagePaths (pbs.map (fun b =>
        OutBlock.text b.page b.btype (b.sentences.map (fun en =>
          ⟨en, ensureTerminal (dictGet (trans ps) en)⟩)))) = [] := by
      rw [outImagePaths, List.filterMap_map]
      refine List.filterMap_eq_nil_iff.mpr ?_
      intro a _
      rfl
    rw [hmap, List.append_nil]

theorem outTextEns_map_text (g : PendingBlock → List Seg) :
    ∀ (pbs : List PendingBlock),
    outTextEns (pbs.map (fun b => OutBlock.text b.page b.btype (g b)))
      = pbs.map (fun b => (g b).map Seg.en)
  | [] => rfl
  | x :: xs => by
    rw [List.map_cons, List.map_cons]
    show (g x).map Seg.en :: outTextEns (xs.map (fun b => OutBlock.text b.page b.btype (g b)))
      = (g x).map Seg.en :: xs.map (fun b => (g b).map Seg.en)
    rw [outTextEns_map_text g xs]

theorem flush_batch_texts (trans : List String → List (String × String))
    {ps : List String} (hps : ps ≠ []) (pbs : List PendingBlock) (fs : List OutBlock) :
    outTextEns (flush_batch trans ps pbs fs)
      = outTextEns fs ++ pbs.map PendingBlock.sentences := by
  rw [flush_batch, if_neg hps, outTextEns_append]
  congr 1
  rw [outTextEns_map_text (fun b => b.sentences.map (fun en =>
    ⟨en, ensureTerminal (dictGet (trans ps) en)⟩))]
  refine List.map_congr_left ?_
  intro b _
  rw [List.map_map,
    show (Seg.en ∘ fun en => (⟨en, ensureTerminal (dictGet (trans ps) en)⟩ : Seg)) = id from rfl,
    List.map_id]

theorem flush_batch_termOk (trans : List String → List (String × String))
    (ps : List String) (pbs : List PendingBlock) (fs : List OutBlock)
    (h : ∀ sg ∈ outSegs fs, TermOk sg) :
    ∀ sg ∈ outSegs (flush_batch trans ps pbs fs), TermOk sg := by
  rw [flush_batch]
  by_cases hps : ps = []
  · rw [if_pos hps]
    exact h
  · rw [if_neg hps]
    intro sg hsg
    rw [outSegs_append] at hsg
    rcases List.mem_append.mp hsg with hsg | hsg
    · exact h sg hsg
    · rw [outSegs, List.map_map, List.mem_flatten] at hsg
      obtain ⟨l, hl, hsgl⟩ := hsg
      rw [List.mem_map] at hl
      obtain ⟨pb, _, hpb⟩ := hl
      subst hpb
      simp only [Function.comp] at hsgl
      rw [List.mem_map] at hsgl
      obtain ⟨en, _, hen⟩ := hsgl
      subst hen
      exact ensureTerminal_spec (dictGet (trans ps) en)

theorem s1Block_delta (trans : String → List String → List (String × String))
    (pageNum : Nat) (st : S1State) (b : SBlock) :
    outImagePaths (s1Block trans pageNum st b).fullStructure
      = outImagePaths st.fullStructure ++ imgOfS b ∧
    outTextEns (s1Block trans pageNum st b).fullStructure
        ++ pendSents (s1Block trans pageNum st b)
      = (outTextEns st.fullStructure ++ pendSents st) ++ textOfS b ∧
    ((∀ sg ∈ outSegs st.fullStructure, TermOk sg) →
      ∀ sg ∈ outSegs (s1Block trans pageNum st b).fullStructure, TermOk sg) := by
  cases b with
  | image path =>
    refine ⟨?_, ?_, ?_⟩
    · rw [s1Block, outImagePaths_append]
      rfl
    · rw [s1Block, outTextEns_append,
        show outTextEns [OutBlock.image (pageNum + 1) path] = [] from rfl]
      simp [pendSents, textOfS]
    · intro h sg hsg
      rw [s1Block, outSegs_append] at hsg
      rcases List.mem_append.mp hsg with hsg | hsg
      · exact h sg hsg
      · simp [outSegs] at hsg
  | text btype textStr sentences =>
    rw [s1Block]
    by_cases hth : 30 ≤ (st.pendingSentences ++ sentences).length
    · have hne : st.pendingSentences ++ sentences ≠ [] := by
        intro hnil
        rw [hnil] at hth
        simp at hth
      simp only [if_pos hth]
      refine ⟨?_, ?_, ?_⟩
      · rw [flush_batch_images]
        simp [imgOfS]
      · rw [flush_batch_texts _ hne]
        simp [pendSents, textOfS, List.append_assoc]
      · intro h
        exact flush_batch_termOk _ _ _ _ h
    · simp only [if_neg hth]
      refine ⟨?_, ?_, ?_⟩
      · simp [imgOfS]
      · simp [pendSents, textOfS, List.append_assoc]
      · intro h
        exact h

theorem s1_fold_blocks (trans : String → List String → List (String × String))
    (pageNum : Nat) : ∀ (blocks : List SBlock) (st : S1State),
    outImagePaths ((blocks.foldl (s1Block trans pageNum) st).fullStructure)
      = outImagePaths st.fullStructure ++ (blocks.map imgOfS).flatten ∧
    outTextEns ((blocks.foldl (s1Block trans pageNum) st).fullStructure)
        ++ pendSents (blocks.foldl (s1Block trans pageNum) st)
      = (outTextEns st.fullStructure ++ pendSents st) ++ (blocks.map textOfS).flatten ∧
    ((∀ sg ∈ outSegs st.fullStructure, TermOk sg) →
      ∀ sg ∈ outSegs ((blocks.foldl (s1Block trans pageNum) st).fullStructure), TermOk sg)
  | [], st => by simp
  | b :: rest, st => by
    obtain ⟨h1, h2, h3⟩ := s1Block_delta trans pageNum st b
    obtain ⟨ih1, ih2, ih3⟩ := s1_fold_blocks trans pageNum rest (s1Block trans pageNum st b)
    refine ⟨?_, ?_, ?_⟩
    · rw [List.foldl_cons, ih1, h1]
      simp [List.append_assoc]
    · rw [List.foldl_cons, ih2, h2]
      simp [List.append_assoc]
    · intro h
      rw [List.foldl_cons]
      exact ih3 (h3 h)

theorem s1_fold_pages (trans : String → List String → List (String × String)) :
    ∀ (pgs : List (Nat × List SBlock)) (st : S1State),
    outImagePaths ((pgs.foldl (fun st2 pr => pr.2.foldl (s1Block trans pr.1) st2) st).fullStructure)
      = outImagePaths st.fullStructure ++ (((pgs.map Prod.snd).flatten).map imgOfS).flatten ∧
    outTextEns ((pgs.foldl (fun st2 pr => pr.2.foldl (s1Block trans pr.1) st2) st).fullStructure)
        ++ pendSents (pgs.foldl (fun st2 pr => pr.2.foldl (s1Block trans pr.1) st2) st)
      = (outTextEns st.fullStructure ++ pendSents st)
          ++ (((pgs.map Prod.snd).flatten).map textOfS).flatten ∧
    ((∀ sg ∈ outSegs st.fullStructure, TermOk sg) →
      ∀ sg ∈ outSegs ((pgs.foldl (fun st2 pr =>
        pr.2.foldl (s1Block trans pr.1) st2) st).fullStructure), TermOk sg)
  | [], st => by simp
  | pg :: rest, st => by
    obtain ⟨h1, h2, h3⟩ := s1_fold_blocks trans pg.1 pg.2 st
    obtain ⟨ih1, ih2, ih3⟩ := s1_fold_pages trans rest (pg.2.foldl (s1Block trans pg.1) st)
    refine ⟨?_, ?_, ?_⟩
    · rw [List.foldl_cons, ih1, h1]
      simp [List.append_assoc]
    · rw [List.foldl_cons, ih2, h2]
      simp [List.append_assoc]
    · intro h
      rw [List.foldl_cons]
      exact ih3 (h3 h)

theorem stage1_images (trans : String → List String → List (String × String))
    (pages : List (List SBlock)) :
    outImagePaths (process_book_stage1 trans pages) = srcImagePaths pages := by
  rw [process_book_stage1, flush_batch_images]
  have h := (s1_fold_pages trans pages.enum ⟨[], "Unknown", [], []⟩).1
  rw [h, List.enum_map_snd]
  rfl

theorem stage1_texts (trans : String → List String → List (String × String))
    (pages : List (List SBlock)) :
    ∃ rest, srcTextSents pages = outTextEns (process_book_stage1 trans pages) ++ rest := by
  rw [process_book_stage1]
  set stEnd := pages.enum.foldl (fun st pr => pr.2.foldl (s1Block trans pr.1) st)
    (⟨[], "Unknown", [], []⟩ : S1State) with hstEnd
  have h2 := (s1_fold_pages trans pages.enum ⟨[], "Unknown", [], []⟩).2.1
  rw [List.enum_map_snd, ← hstEnd] at h2
  have h2' : outTextEns stEnd.fullStructure ++ pendSents stEnd = srcTextSents pages := by
    rw [h2]
    rfl
  by_cases hps : stEnd.pendingSentences = []
  · rw [hps, flush_batch_nil]
    exact ⟨pendSents stEnd, h2'.symm⟩
  · rw [flush_batch_texts _ hps]
    refine ⟨[], ?_⟩
    rw [List.append_nil]
    exact h2'.symm

theorem stage1_termOk (trans : String → List String → List (String × String))
    (pages : List (List SBlock)) :
    ∀ sg ∈ outSegs (process_book_stage1 trans pages), TermOk sg := by
  rw [process_book_stage1]
  apply flush_batch_termOk
  refine (s1_fold_pages trans pages.enum ⟨[], "Unknown", [], []⟩).2.2 ?_
  intro sg hsg
  simp [outSegs] at hsg

theorem patchSegs_spec (t1 : String → Option String) (mkSnap : List Seg → List OutBlock) :
    ∀ (todo done : List Seg) (st : PatchSt),
    (patchSegs t1 mkSnap done todo st).1 = done ++ todo.map (patchSegPure t1) ∧
    (patchSegs t1 mkSnap done todo st).2.requests
      = st.requests + todo.countP (fun s => isDeficient s) ∧
    (patchSegs t1 mkSnap done todo st).2.count
      = st.count + todo.countP (fun s => isDeficient s && patchHit t1 s) ∧
    (patchSegs t1 mkSnap done todo st).2.writes.length
      = st.writes.length + todo.countP (fun s => isDeficient s && patchHit t1 s)
  | [], done, st => by simp [patchSegs]
  | s :: rest, done, st => by
    rw [patchSegs]
    by_cases hdef : isDeficient s = true
    · rw [if_pos hdef]
      cases ht : t1 s.en with
      | some mn =>
        dsimp only
        by_cases hmn : mn ≠ ""
        · rw [if_pos hmn]
          obtain ⟨ih1, ih2, ih3, ih4⟩ := patchSegs_spec t1 mkSnap rest
            (done ++ [⟨s.en, ensureTerminal mn⟩])
            { requests := st.requests + 1,
              count := st.count + 1,
              writes := st.writes ++ [mkSnap (done ++ ⟨s.en, ensureTerminal mn⟩ :: rest)] }
          refine ⟨?_, ?_, ?_, ?_⟩
          · rw [ih1, List.map_cons]
            rw [show patchSegPure t1 s = ⟨s.en, ensureTerminal mn⟩ from by
              rw [patchSegPure, if_pos hdef, ht]
              dsimp only
              rw [if_pos hmn]]
            simp
          · rw [ih2, List.countP_cons, hdef]
            simp [Nat.add_comm, Nat.add_assoc, Nat.add_left_comm]
          · rw [ih3, List.countP_cons, hdef,
              show patchHit t1 s = true from by rw [patchHit, ht]; simpa using hmn]
            simp [Nat.add_comm, Nat.add_assoc, Nat.add_left_comm]
          · rw [ih4, List.countP_cons, hdef,
              show patchHit t1 s = true from by rw [patchHit, ht]; simpa using hmn]
            simp [Nat.add_comm, Nat.add_assoc, Nat.add_left_comm]
        · rw [if_neg hmn]
          obtain ⟨ih1, ih2, ih3, ih4⟩ := patchSegs_spec t1 mkSnap rest (done ++ [s])
            { st with requests := st.requests + 1 }
          refine ⟨?_, ?_, ?_, ?_⟩
          · rw [ih1, List.map_cons]
            rw [show patchSegPure t1 s = s from by
              rw [patchSegPure, if_pos hdef, ht]
              dsimp only
              rw [if_neg hmn]]
            simp
          · rw [ih2, List.countP_cons, hdef]
            simp [Nat.add_comm, Nat.add_assoc, Nat.add_left_comm]
          · rw [ih3, List.countP_cons, hdef,
              show patchHit t1 s = false from by
                rw [patchHit, ht]
                simpa using hmn]
            simp
          · rw [ih4, List.countP_cons, hdef,
              show patchHit t1 s = false from by
                rw [patchHit, ht]
                simpa using hmn]
            simp
      | none =>
        dsimp only
        obtain ⟨ih1, ih2, ih3, ih4⟩ := patchSegs_spec t1 mkSnap rest (done ++ [s])
          { st with requests := st.requests + 1 }
        refine ⟨?_, ?_, ?_, ?_⟩
        · rw [ih1, List.map_cons]
          rw [show patchSegPure t1 s = s from by rw [patchSegPure, if_pos hdef, ht]]
          simp
        · rw [ih2, List.countP_cons, hdef]
          simp [Nat.add_comm, Nat.add_assoc, Nat.add_left_comm]
        · rw [ih3, List.countP_cons, hdef,
            show patchHit t1 s = false from by rw [patchHit, ht]]
          simp
        · rw [ih4, List.countP_cons, hdef,
            show patchHit t1 s = false from by rw [patchHit, ht]]
          simp
    · rw [if_neg hdef]
      obtain ⟨ih1, ih2, ih3, ih4⟩ := patchSegs_spec t1 mkSnap rest (done ++ [s]) st
      have hdef' : isDeficient s = false := by
        cases hd : isDeficient s with
        | false => rfl
        | true => exact absurd hd hdef
      refine ⟨?_, ?_, ?_, ?_⟩
      · rw [ih1, List.map_cons,
          show patchSegPure t1 s = s from by rw [patchSegPure, if_neg hdef]]
        simp
      · rw [ih2, List.countP_cons, hdef']
        simp
      · rw [ih3, List.countP_cons, hdef']
        simp
      · rw [ih4, List.countP_cons, hdef']
        simp

theorem outSegs_cons_image (pg : Nat) (p : String) (rest : List OutBlock) :
    outSegs (OutBlock.image pg p :: rest) = outSegs rest := by
  simp [outSegs]

theorem outSegs_cons_text (pg : Nat) (bt : BType) (c : List Seg) (rest : List OutBlock) :
    outSegs (OutBlock.text pg bt c :: rest) = c ++ outSegs rest := by
  simp [outSegs]

theorem patchBlocks_spec (t1 : String → Option String) :
    ∀ (todo done : List OutBlock) (st : PatchSt),
    (patchBlocks t1 done todo st).1 = done ++ todo.map (mapBlockSegs (patchSegPure t1)) ∧
    (patchBlocks t1 done todo st).2.requests
      = st.requests + (outSegs todo).countP (fun s => isDeficient s) ∧
    (patchBlocks t1 done todo st).2.count
      = st.count + (outSegs todo).countP (fun s => isDeficient s && patchHit t1 s) ∧
    (patchBlocks t1 done todo st).2.writes.length
      = st.writes.length + (outSegs todo).countP (fun s => isDeficient s && patchHit t1 s)
  | [], done, st => by simp [patchBlocks, outSegs]
  | OutBlock.image pg path :: rest, done, st => by
    rw [patchBlocks]
    obtain ⟨ih1, ih2, ih3, ih4⟩ :=
      patchBlocks_spec t1 rest (done ++ [OutBlock.image pg path]) st
    refine ⟨?_, ?_, ?_, ?_⟩
    · rw [ih1, List.map_cons]
      simp [mapBlockSegs]
    · rw [ih2, outSegs_cons_image]
    · rw [ih3, outSegs_cons_image]
    · rw [ih4, outSegs_cons_image]
  | OutBlock.text pg bt content :: rest, done, st => by
    rw [patchBlocks]
    obtain ⟨s1, s2, s3, s4⟩ := patchSegs_spec t1
      (fun segs => done ++ OutBlock.text pg bt segs :: rest) content [] st
    obtain ⟨ih1, ih2, ih3, ih4⟩ := patchBlocks_spec t1 rest
      (done ++ [OutBlock.text pg bt (patchSegs t1
        (fun segs => done ++ OutBlock.text pg bt segs :: rest) [] content st).1])
      ((patchSegs t1 (fun segs => done ++ OutBlock.text pg bt segs :: rest) [] content st).2)
    refine ⟨?_, ?_, ?_, ?_⟩
    · rw [ih1, s1, List.map_cons]
      simp [mapBlockSegs]
    · rw [ih2, s2, outSegs_cons_text, List.countP_append]
      omega
    · rw [ih3, s3, outSegs_cons_text, List.countP_append]
      omega
    · rw [ih4, s4, outSegs_cons_text, List.countP_append]
      omega

/-- Summary of one Patcher pass: the returned state is the input with
exactly the deficient-and-successfully-translated segments replaced; one
request is issued per deficient segment; the file is rewritten once per
successful patch. -/
theorem patcher_spec (t1 : String → Option String) (data : List OutBlock) :
    (patch_missing_translations t1 data).1 = data.map (mapBlockSegs (patchSegPure t1)) ∧
    (patch_missing_translations t1 data).2.requests
      = (outSegs data).countP (fun s => isDeficient s) ∧
    (patch_missing_translations t1 data).2.count
      = (outSegs data).countP (fun s => isDeficient s && patchHit t1 s) ∧
    (patch_missing_translations t1 data).2.writes.length
      = (patch_missing_translations t1 data).2.count := by
  obtain ⟨h1, h2, h3, h4⟩ := patchBlocks_spec t1 data [] ⟨0, 0, []⟩
  refine ⟨by simpa using h1, by simpa using h2, by simpa using h3, ?_⟩
  show (patchBlocks t1 [] data ⟨0, 0, []⟩).2.writes.length
    = (patchBlocks t1 [] data ⟨0, 0, []⟩).2.count
  rw [h4, h3]
  rfl

theorem refineSegs_spec : ∀ (c : List Seg) (rem : List String),
    (refineSegs c rem).1
      = (c.zip rem).map (fun pr => ⟨pr.1.en, pr.2⟩) ++ c.drop rem.length ∧
    (refineSegs c rem).2 = rem.drop c.length
  | [], rem => by simp [refineSegs]
  | s :: rest, [] => by simp [refineSegs]
  | s :: rest, r :: rem => by
    obtain ⟨ih1, ih2⟩ := refineSegs_spec rest rem
    rw [refineSegs]
    constructor
    · dsimp only
      rw [ih1, List.zip_cons_cons, List.map_cons]
      rfl
    · dsimp only
      rw [ih2]
      rfl

theorem refineSegs_nil_rem : ∀ (c : List Seg), refineSegs c [] = (c, [])
  | [] => rfl
  | _ :: _ => rfl

theorem refineSegs_append : ∀ (a b : List Seg) (rem : List String),
    refineSegs (a ++ b) rem
      = ((refineSegs a rem).1 ++ (refineSegs b (refineSegs a rem).2).1,
         (refineSegs b (refineSegs a rem).2).2)
  | [], b, rem => rfl
  | s :: rest, b, [] => by
    simp [refineSegs_nil_rem]
  | s :: rest, b, r :: rem => by
    have ih := refineSegs_append rest b rem
    show refineSegs (s :: (rest ++ b)) (r :: rem) = _
    rw [refineSegs, ih]
    rfl

theorem refineBlocksGo_spec : ∀ (chunk : List OutBlock) (rem : List String),
    outSegs (refineBlocksGo chunk rem).1 = (refineSegs (outSegs chunk) rem).1 ∧
    (refineBlocksGo chunk rem).2 = (refineSegs (outSegs chunk) rem).2 ∧
    (refineBlocksGo chunk rem).1.length = chunk.length
  | [], rem => by simp [refineBlocksGo, outSegs, refineSegs]
  | OutBlock.image pg p :: rest, rem => by
    obtain ⟨ih1, ih2, ih3⟩ := refineBlocksGo_spec rest rem
    rw [refineBlocksGo]
    refine ⟨?_, ?_, ?_⟩
    · dsimp only
      rw [outSegs_cons_image, outSegs_cons_image, ih1]
    · dsimp only
      rw [outSegs_cons_image, ih2]
    · dsimp only
      rw [List.length_cons, List.length_cons, ih3]
  | OutBlock.text pg bt c :: rest, rem => by
    obtain ⟨ih1, ih2, ih3⟩ := refineBlocksGo_spec rest ((refineSegs c rem).2)
    rw [refineBlocksGo]
    refine ⟨?_, ?_, ?_⟩
    · dsimp only
      rw [outSegs_cons_text, ih1, outSegs_cons_text,
        refineSegs_append c (outSegs rest) rem]
    · dsimp only
      rw [ih2, outSegs_cons_text, refineSegs_append c (outSegs rest) rem]
    · dsimp only
      rw [List.length_cons, List.length_cons, ih3]

theorem refine_chunk_none (chunk : List OutBlock) :
    refine_chunk none chunk = chunk := by
  rw [refine_chunk.eq_def]
  by_cases h1 : chunk = []
  · rw [if_pos h1]
  · rw [if_neg h1]
    by_cases h2 : pyStrip (inputTextOf chunk).data = []
    · rw [if_pos h2]
    · rw [if_neg h2]

theorem refine_chunk_length (reply : Option (List String)) (chunk : List OutBlock) :
    (refine_chunk reply chunk).length = chunk.length := by
  rw [refine_chunk.eq_def]
  by_cases h1 : chunk = []
  · rw [if_pos h1]
  · rw [if_neg h1]
    by_cases h2 : pyStrip (inputTextOf chunk).data = []
    · rw [if_pos h2]
    · rw [if_neg h2]
      cases reply with
      | none => rfl
      | some refined => exact (refineBlocksGo_spec chunk refined).2.2

/-- Successful refinement rewrites the chunk's segments positionally:
the i-th segment receives the i-th entry of the returned list (keeping
its source text), segments beyond the list's length are unchanged. -/
theorem refine_chunk_some_segs {chunk : List OutBlock} (h1 : chunk ≠ [])
    (h2 : pyStrip (inputTextOf chunk).data ≠ []) (refined : List String) :
    outSegs (refine_chunk (some refined) chunk)
      = ((outSegs chunk).zip refined).map (fun pr => ⟨pr.1.en, pr.2⟩)
          ++ (outSegs chunk).drop refined.length := by
  rw [refine_chunk.eq_def, if_neg h1, if_neg h2]
  rw [(refineBlocksGo_spec chunk refined).1]
  exact (refineSegs_spec (outSegs chunk) refined).1

theorem chunksGo_flatten {α : Type} : ∀ (l accRev : List α) (k : Nat),
    (chunksGo l accRev k).flatten = accRev.reverse ++ l
  | [], accRev, k => by
    rw [chunksGo]
    by_cases h : accRev.isEmpty
    · have : accRev = [] := by simpa [List.isEmpty_iff] using h
      rw [if_pos h, this]
      rfl
    · rw [if_neg h]
      simp
  | a :: rest, accRev, 0 => by
    rw [chunksGo, List.flatten_cons, chunksGo_flatten rest [a] 14]
    simp
  | a :: rest, accRev, Nat.succ k => by
    rw [chunksGo, chunksGo_flatten rest (a :: accRev) k]
    simp

theorem chunksOf15_flatten {α : Type} (l : List α) :
    (chunksOf15 l).flatten = l :=
  chunksGo_flatten l [] 15

theorem chunksGo_sizes {α : Type} : ∀ (l accRev : List α) (k : Nat),
    accRev.length + k = 15 →
    ∀ c ∈ chunksGo l accRev k, c ≠ [] ∧ c.length ≤ 15
  | [], accRev, k, hk, c, hc => by
    rw [chunksGo] at hc
    by_cases h : accRev.isEmpty
    · rw [if_pos h] at hc
      simp at hc
    · rw [if_neg h] at hc
      have hc' : c = accRev.reverse := by simpa using hc
      subst hc'
      constructor
      · simpa [List.isEmpty_iff] using h
      · rw [List.length_reverse]
        omega
  | a :: rest, accRev, 0, hk, c, hc => by
    rw [chunksGo] at hc
    rcases List.mem_cons.mp hc with hc | hc
    · subst hc
      constructor
      · intro hnil
        have hlen2 := congrArg List.length hnil
        rw [List.length_reverse] at hlen2
        simp only [List.length_nil] at hlen2
        omega
      · rw [List.length_reverse]
        omega
    · exact chunksGo_sizes rest [a] 14 (by simp) c hc
  | a :: rest, accRev, Nat.succ k, hk, c, hc => by
    rw [chunksGo] at hc
    refine chunksGo_sizes rest (a :: accRev) k ?_ c hc
    rw [List.length_cons]
    omega

theorem chunksGo_ne_nil {α : Type} : ∀ (l accRev : List α) (k : Nat),
    accRev ≠ [] → chunksGo l accRev k ≠ []
  | [], accRev, k, h => by
    rw [chunksGo, if_neg (by simpa [List.isEmpty_iff] using h)]
    simp
  | a :: rest, accRev, 0, h => by
    rw [chunksGo]
    simp
  | a :: rest, accRev, Nat.succ k, h => by
    rw [chunksGo]
    exact chunksGo_ne_nil rest (a :: accRev) k (by simp)

theorem chunksGo_dropLast_sizes {α : Type} : ∀ (l accRev : List α) (k : Nat),
    accRev.length + k = 15 →
    ∀ c ∈ (chunksGo l accRev k).dropLast, c.length = 15
  | [], accRev, k, hk, c, hc => by
    rw [chunksGo] at hc
    by_cases h : accRev.isEmpty
    · rw [if_pos h] at hc
      simp at hc
    · rw [if_neg h] at hc
      simp at hc
  | a :: rest, accRev, 0, hk, c, hc => by
    rw [chunksGo] at hc
    have hz : chunksGo rest [a] 14 ≠ [] := chunksGo_ne_nil rest [a] 14 (by simp)
    cases hzz : chunksGo rest [a] 14 with
    | nil => exact absurd hzz hz
    | cons z zs =>
      rw [hzz, List.dropLast_cons₂] at hc
      rcases List.mem_cons.mp hc with hc | hc
      · subst hc
        rw [List.length_reverse]
        omega
      · refine chunksGo_dropLast_sizes rest [a] 14 (by simp) c ?_
        rw [hzz]
        exact hc
  | a :: rest, accRev, Nat.succ k, hk, c, hc => by
    rw [chunksGo] at hc
    refine chunksGo_dropLast_sizes rest (a :: accRev) k ?_ c hc
    rw [List.length_cons]
    omega

theorem reinsert_length : ∀ (blocks repl : List OutBlock),
    (reinsert blocks repl).length = blocks.length
  | [], _ => rfl
  | b :: rest, repl => by
    rw [reinsert.eq_def]
    dsimp only
    by_cases hb : isTranslatable b = true
    · rw [if_pos hb]
      cases repl with
      | nil => simp [reinsert_length rest []]
      | cons r rrem => simp [reinsert_length rest rrem]
    · rw [if_neg hb]
      simp [reinsert_length rest repl]

theorem reinsert_nontrans : ∀ (blocks repl : List OutBlock),
    ∀ pr ∈ blocks.zip (reinsert blocks repl), isTranslatable pr.1 = false → pr.2 = pr.1
  | [], _, pr, hpr, _ => by simp at hpr
  | b :: rest, repl, pr, hpr, hnt => by
    rw [reinsert.eq_def] at hpr
    dsimp only at hpr
    by_cases hb : isTranslatable b = true
    · rw [if_pos hb] at hpr
      cases repl with
      | nil =>
        rw [List.zip_cons_cons] at hpr
        rcases List.mem_cons.mp hpr with hpr | hpr
        · subst hpr
          rfl
        · exact reinsert_nontrans rest [] pr hpr hnt
      | cons r rrem =>
        rw [List.zip_cons_cons] at hpr
        rcases List.mem_cons.mp hpr with hpr | hpr
        · subst hpr
          rw [hb] at hnt
          exact Bool.noConfusion hnt
        · exact reinsert_nontrans rest rrem pr hpr hnt
    · rw [if_neg hb] at hpr
      rw [List.zip_cons_cons] at hpr
      rcases List.mem_cons.mp hpr with hpr | hpr
      · subst hpr
        rfl
      · exact reinsert_nontrans rest repl pr hpr hnt

theorem reinsert_slots : ∀ (blocks repl : List OutBlock),
    blocks.countP (fun b => isTranslatable b) = repl.length →
    (blocks.zip (reinsert blocks repl)).filterMap
      (fun pr => if isTranslatable pr.1 then some pr.2 else none) = repl
  | [], repl, hlen => by
    have : repl = [] := by
      cases repl with
      | nil => rfl
      | cons r rrem => simp at hlen
    subst this
    rfl
  | b :: rest, repl, hlen => by
    rw [List.countP_cons] at hlen
    by_cases hb : isTranslatable b = true
    · simp only [hb, if_pos] at hlen
      cases repl with
      | nil => simp at hlen
      | cons r rrem =>
        rw [reinsert.eq_def]
        dsimp only
        rw [if_pos hb, List.zip_cons_cons,
          List.filterMap_cons_some (by rw [hb]; rfl)]
        rw [reinsert_slots rest rrem (by simp at hlen; omega)]
    · have hb' : isTranslatable b = false := by
        cases hq : isTranslatable b with
        | false => rfl
        | true => exact absurd hq hb
      simp only [hb', if_neg, Bool.false_eq_true, not_false_eq_true] at hlen
      rw [reinsert.eq_def]
      dsimp only
      rw [if_neg hb, List.zip_cons_cons,
        List.filterMap_cons_none (by rw [hb']; rfl)]
      exact reinsert_slots rest repl (by simpa using hlen)

theorem zip_self_snd_eq_fst {α : Type} : ∀ (l : List α), ∀ pr ∈ l.zip l, pr.2 = pr.1
  | [], pr, hpr => by simp at hpr
  | a :: rest, pr, hpr => by
    rw [List.zip_cons_cons] at hpr
    rcases List.mem_cons.mp hpr with hpr | hpr
    · subst hpr
      rfl
    · exact zip_self_snd_eq_fst rest pr hpr

theorem refined_flatten_length (replies : Nat → Option (List String)) :
    ∀ (cl : List (Nat × List OutBlock)),
    ((cl.map (fun pr => refine_chunk (replies pr.1) pr.2)).flatten).length
      = ((cl.map Prod.snd).flatten).length
  | [] => rfl
  | pr :: rest => by
    rw [List.map_cons, List.map_cons, List.flatten_cons, List.flatten_cons,
      List.length_append, List.length_append, refine_chunk_length,
      refined_flatten_length replies rest]

theorem refine_narrative_length (replies : Nat → Option (List String))
    (blocks : List OutBlock) :
    (refine_narrative_chunked replies blocks).length = blocks.length := by
  rw [refine_narrative_chunked]
  by_cases h1 : blocks = []
  · rw [if_pos h1, h1]
  · rw [if_neg h1]
    by_cases h2 : blocks.filter (fun b => isTranslatable b) = []
    · rw [if_pos h2]
    · rw [if_neg h2]
      exact reinsert_length blocks _

theorem refine_narrative_nontrans (replies : Nat → Option (List String))
    (blocks : List OutBlock) :
    ∀ pr ∈ blocks.zip (refine_narrative_chunked replies blocks),
      isTranslatable pr.1 = false → pr.2 = pr.1 := by
  rw [refine_narrative_chunked]
  by_cases h1 : blocks = []
  · rw [if_pos h1]
    subst h1
    intro pr hpr
    simp at hpr
  · rw [if_neg h1]
    by_cases h2 : blocks.filter (fun b => isTranslatable b) = []
    · rw [if_pos h2]
      intro pr hpr _
      exact zip_self_snd_eq_fst blocks pr hpr
    · rw [if_neg h2]
      exact reinsert_nontrans blocks _

/-- The translatable positions of the refined document carry, in order,
the concatenated results of refining the 15-block chunks of the
translatable sublist. -/
theorem refine_narrative_slots (replies : Nat → Option (List String))
    (blocks : List OutBlock)
    (h2 : blocks.filter (fun b => isTranslatable b) ≠ []) :
    (blocks.zip (refine_narrative_chunked replies blocks)).filterMap
        (fun pr => if isTranslatable pr.1 then some pr.2 else none)
      = (((chunksOf15 (blocks.filter (fun b => isTranslatable b))).enum.map
          (fun pr => refine_chunk (replies pr.1) pr.2)).flatten) := by
  have h1 : blocks ≠ [] := by
    intro h
    rw [h] at h2
    exact h2 rfl
  rw [refine_narrative_chunked, if_neg h1, if_neg h2]
  refine reinsert_slots blocks _ ?_
  have hlen : (((chunksOf15 (blocks.filter (fun b => isTranslatable b))).enum.map
      (fun pr => refine_chunk (replies pr.1) pr.2)).flatten).length
      = (blocks.filter (fun b => isTranslatable b)).length := by
    rw [refined_flatten_length, List.enum_map_snd, chunksOf15_flatten]
  rw [List.countP_eq_length_filter, hlen]

theorem epubStep_text (pathExists : String → Bool) (chs : List Chapter) (t : String)
    (content : List String) (i pg : Nat) (bt : BType) (c : List Seg) :
    epubStep pathExists (chs, some t, content) (i, OutBlock.text pg bt c)
      = if bt = BType.heading ∨ i = 0 then
          (chs ++ [⟨t, content⟩], some (if joinMn c = "" then "Chapter" else joinMn c),
           ["<h1>" ++ (if joinMn c = "" then "Chapter" else joinMn c) ++ "</h1>"])
        else if joinMn c ≠ "" then (chs, some t, content ++ ["<p>" ++ joinMn c ++ "</p>"])
        else (chs, some t, content) := rfl

theorem epubStep_first_text (pathExists : String → Bool) (pg : Nat) (bt : BType)
    (c : List Seg) :
    epubStep pathExists ([], none, []) (0, OutBlock.text pg bt c)
      = ([], some (if joinMn c = "" then "Chapter" else joinMn c),
         ["<h1>" ++ (if joinMn c = "" then "Chapter" else joinMn c) ++ "</h1>"]) := by
  rw [show epubStep pathExists ([], none, []) (0, OutBlock.text pg bt c)
      = (if bt = BType.heading ∨ 0 = 0 then
          (([] : List Chapter), some (if joinMn c = "" then "Chapter" else joinMn c),
           ["<h1>" ++ (if joinMn c = "" then "Chapter" else joinMn c) ++ "</h1>"])
         else if joinMn c ≠ "" then
           (([] : List Chapter), (none : Option String),
            ([] : List String) ++ ["<p>" ++ joinMn c ++ "</p>"])
         else (([] : List Chapter), (none : Option String), ([] : List String))) from rfl]
  rw [if_pos (Or.inr rfl)]

theorem epub_fold (pathExists : String → Bool) :
    ∀ (items : List (Nat × OutBlock)) (chapters : List Chapter) (t : String)
      (content : List String),
    (∀ pr ∈ items, pr.1 ≠ 0) →
    ((finalizeEpub (items.foldl (epubStep pathExists) (chapters, some t, content))).map
        Chapter.fragments).flatten
      = (chapters.map Chapter.fragments).flatten ++ content
          ++ (items.map (fun pr => fragOf pathExists pr.2)).flatten ∧
    ∃ frags rest3,
      finalizeEpub (items.foldl (epubStep pathExists) (chapters, some t, content))
        = chapters ++ ⟨t, frags⟩ :: rest3
  | [], chapters, t, content, _ => by
    constructor
    · rw [List.foldl_nil]
      rw [show finalizeEpub (chapters, some t, content) = chapters ++ [⟨t, content⟩] from rfl]
      rw [List.map_append, List.flatten_append]
      simp
    · exact ⟨content, [], rfl⟩
  | (i, b) :: rest, chapters, t, content, hidx => by
    have hi : i ≠ 0 := hidx (i, b) (by simp)
    have hrest : ∀ pr ∈ rest, pr.1 ≠ 0 := fun pr hpr => hidx pr (by simp [hpr])
    rw [List.foldl_cons]
    cases b with
    | image pg path =>
      rw [show epubStep pathExists (chapters, some t, content) (i, OutBlock.image pg path)
          = (if pathExists path then
              (chapters, some t, content
                ++ ["<div><img src=\"images/" ++ basename path ++ "\" /></div>"])
            else (chapters, some t, content)) from rfl]
      by_cases hp : pathExists path = true
      · rw [if_pos hp]
        obtain ⟨ih1, ih2⟩ := epub_fold pathExists rest chapters t
          (content ++ ["<div><img src=\"images/" ++ basename path ++ "\" /></div>"]) hrest
        constructor
        · rw [ih1, List.map_cons, List.flatten_cons,
            show fragOf pathExists (OutBlock.image pg path)
              = ["<div><img src=\"images/" ++ basename path ++ "\" /></div>"] from by
                rw [fragOf, if_pos hp]]
          simp [List.append_assoc]
        · exact ih2
      · rw [if_neg hp]
        obtain ⟨ih1, ih2⟩ := epub_fold pathExists rest chapters t content hrest
        constructor
        · rw [ih1, List.map_cons, List.flatten_cons,
            show fragOf pathExists (OutBlock.image pg path) = [] from by
              rw [fragOf, if_neg hp]]
          simp
        · exact ih2
    | text pg bt c =>
      rw [epubStep_text]
      by_cases hh : bt = BType.heading
      · rw [if_pos (Or.inl hh)]
        obtain ⟨ih1, ih2⟩ := epub_fold pathExists rest (chapters ++ [⟨t, content⟩])
          (if joinMn c = "" then "Chapter" else joinMn c)
          ["<h1>" ++ (if joinMn c = "" then "Chapter" else joinMn c) ++ "</h1>"] hrest
        constructor
        · rw [ih1, List.map_cons, List.flatten_cons,
            show fragOf pathExists (OutBlock.text pg bt c)
              = ["<h1>" ++ (if joinMn c = "" then "Chapter" else joinMn c) ++ "</h1>"] from by
                rw [fragOf, if_pos hh]]
          rw [List.map_append, List.flatten_append]
          simp [List.append_assoc]
        · obtain ⟨frags, rest3, hr⟩ := ih2
          exact ⟨content,
            ⟨if joinMn c = "" then "Chapter" else joinMn c, frags⟩ :: rest3,
            by rw [hr]; simp⟩
      · rw [if_neg (show ¬ (bt = BType.heading ∨ i = 0) from fun hor =>
          hor.elim (fun h1 => hh h1) (fun h1 => hi h1))]
        by_cases hc : joinMn c ≠ ""
        · rw [if_pos hc]
          obtain ⟨ih1, ih2⟩ := epub_fold pathExists rest chapters t
            (content ++ ["<p>" ++ joinMn c ++ "</p>"]) hrest
          constructor
          · rw [ih1, List.map_cons, List.flatten_cons,
              show fragOf pathExists (OutBlock.text pg bt c) = ["<p>" ++ joinMn c ++ "</p>"] from by
                rw [fragOf, if_neg hh, if_pos hc]]
            simp [List.append_assoc]
          · exact ih2
        · rw [if_neg hc]
          obtain ⟨ih1, ih2⟩ := epub_fold pathExists rest chapters t content hrest
          constructor
          · rw [ih1, List.map_cons, List.flatten_cons,
              show fragOf pathExists (OutBlock.text pg bt c) = [] from by
                rw [fragOf, if_neg hh, if_neg hc]]
            simp
          · exact ih2

/-! ## Supporting lemmas for the claim theorems -/

theorem outSegs_map_mapBlockSegs (f : Seg → Seg) : ∀ (data : List OutBlock),
    outSegs (data.map (mapBlockSegs f)) = (outSegs data).map f
  | [] => rfl
  | OutBlock.image pg p :: rest => by
    rw [List.map_cons,
      show mapBlockSegs f (OutBlock.image pg p) = OutBlock.image pg p from rfl,
      outSegs_cons_image, outSegs_cons_image]
    exact outSegs_map_mapBlockSegs f rest
  | OutBlock.text pg bt c :: rest => by
    rw [List.map_cons,
      show mapBlockSegs f (OutBlock.text pg bt c) = OutBlock.text pg bt (c.map f) from rfl,
      outSegs_cons_text, outSegs_cons_text, List.map_append,
      outSegs_map_mapBlockSegs f rest]

theorem termOk_patchSegPure (t1 : String → Option String) (s : Seg) (h : TermOk s) :
    TermOk (patchSegPure t1 s) := by
  rw [patchSegPure]
  by_cases hd : isDeficient s = true
  · rw [if_pos hd]
    cases ht : t1 s.en with
    | none => exact h
    | some mn =>
      dsimp only
      by_cases hmn : mn ≠ ""
      · rw [if_pos hmn]
        exact ensureTerminal_spec mn
      · rw [if_neg hmn]
        exact h
  · rw [if_neg hd]
    exact h

theorem enumFrom_one_ne_zero {α : Type} (rest : List α) :
    ∀ pr ∈ rest.enumFrom 1, pr.1 ≠ 0 := by
  intro pr hpr
  obtain ⟨i, x⟩ := pr
  have h := List.mem_enumFrom hpr
  have h1 := h.1
  omega

/-! ## The claim theorems -/

/-- C1 (counterexample): a source page holds a paragraph followed by an
image, yet the persisted Document State lists the image FIRST — images
bypass the pending batch while the preceding text block is still waiting
in it, so an image IS placed before a text block that precedes it in the
source. -/
theorem C1_image_before_earlier_text :
    process_book_stage1 (fun _ _ => [])
        [[SBlock.text BType.paragraph "Hi." ["Hi."], SBlock.image "i.png"]]
      = [OutBlock.image 1 "i.png", OutBlock.text 1 BType.paragraph [⟨"Hi.", ""⟩]] := by
  decide

/-- C1 (amended): Stage 1 does preserve the source order among the image
blocks themselves (they come out exactly as `srcImagePaths`) and among
the text blocks themselves (their source-sentence lists are a prefix of
`srcTextSents`, the tail being blocks lost to a final flush of an empty
batch) — only the relative interleaving of images with batched text is
not source order. -/
theorem C1_per_kind_order (trans : String → List String → List (String × String))
    (pages : List (List SBlock)) :
    outImagePaths (process_book_stage1 trans pages) = srcImagePaths pages
    ∧ ∃ rest, srcTextSents pages = outTextEns (process_book_stage1 trans pages) ++ rest :=
  ⟨stage1_images trans pages, stage1_texts trans pages⟩

/-- C2: with no final PDF, no refined JSON, and a structural JSON of 500
bytes (present but under the validity threshold 1000), the Driver calls
`process_book_stage1`, but its bare `os.path.exists` guard returns at
once: the undersized artifact is neither deleted nor re-extracted, and
flows on to the Patcher — the claimed re-entry of Stage 1 extraction
never happens. -/
theorem C2_undersized_structural_not_reextracted :
    Driver.process_single_book ⟨none, none, some 500⟩
      = [Driver.Act.callStage1, Driver.Act.stage1SkipExisting,
         Driver.Act.patch, Driver.Act.refineAssemble]
    ∧ Driver.Act.stage1Extract ∉ Driver.process_single_book ⟨none, none, some 500⟩
    ∧ Driver.is_valid_file (some 500) 1000 = false := by
  decide

/-- C3: a valid JSON envelope whose `translations` entries are not
objects, `\x7b"translations": [42]\x7d`, passes through
`translate_sentence_batch` unchanged (the function returns `[42]`, not
an empty result), and the mapping comprehension of `flush_batch` then
evaluates `"en" in 42`, a TypeError (`none`) with no handler — the fault
escapes and aborts the document instead of degrading to "no
translations". -/
theorem C3_invalid_payload_uncaught_type_error :
    translate_sentence_batch ["Hi."] (some "\x7b\"translations\": [42]\x7d")
        = JVal.arr [JVal.num "42"]
    ∧ buildMapping (JVal.arr [JVal.num "42"]) = none :=
  ⟨rfl, rfl⟩

/-- C4: every segment of the Document State persisted by Stage 1
satisfies the terminal-punctuation invariant (empty target text, or last
character in `.`/`!`/`?`), and the invariant still holds for every
segment after a Patcher pass over that state, whatever the two
translation services return. -/
theorem C4_terminal_punctuation (trans : String → List String → List (String × String))
    (pages : List (List SBlock)) (t1 : String → Option String) :
    (∀ sg ∈ outSegs (process_book_stage1 trans pages), TermOk sg)
    ∧ (∀ sg ∈ outSegs
        ((patch_missing_translations t1 (process_book_stage1 trans pages)).1),
        TermOk sg) := by
  refine ⟨stage1_termOk trans pages, ?_⟩
  intro sg hsg
  rw [(patcher_spec t1 (process_book_stage1 trans pages)).1,
    outSegs_map_mapBlockSegs] at hsg
  obtain ⟨s, hs, rfl⟩ := List.mem_map.mp hsg
  exact termOk_patchSegPure t1 s (stage1_termOk trans pages s hs)

/-- C5 (counterexample): two runs of the Patcher — one that patches a
deficient segment (count 1), one given an already-complete document
(count 0) — return the very same document state, so the value
`patch_missing_translations` returns (`return data`, the `.1` here)
cannot carry the count of patched segments: the claimed pair (count AND
state) is not returned. -/
theorem C5_return_carries_no_count :
    (patch_missing_translations (fun _ => some "Za.")
        [OutBlock.text 1 BType.paragraph [⟨"Hi.", ""⟩]]).1
      = (patch_missing_translations (fun _ => none)
        [OutBlock.text 1 BType.paragraph [⟨"Hi.", "Za."⟩]]).1
    ∧ (patch_missing_translations (fun _ => some "Za.")
        [OutBlock.text 1 BType.paragraph [⟨"Hi.", ""⟩]]).2.count = 1
    ∧ (patch_missing_translations (fun _ => none)
        [OutBlock.text 1 BType.paragraph [⟨"Hi.", "Za."⟩]]).2.count = 0 := by
  refine ⟨?_, ?_, ?_⟩ <;> decide

/-- C5 (amended): one Patcher pass issues exactly one request per
deficient segment (empty or shorter than 3 characters), patches exactly
those whose single-sentence request succeeds, persists the full state
once per successful patch, and returns the updated document state — the
count and write trail are side effects, not part of the return value. -/
theorem C5_patcher_contract (t1 : String → Option String) (data : List OutBlock) :
    (patch_missing_translations t1 data).1 = data.map (mapBlockSegs (patchSegPure t1))
    ∧ (patch_missing_translations t1 data).2.requests
      = (outSegs data).countP (fun s => isDeficient s)
    ∧ (patch_missing_translations t1 data).2.count
      = (outSegs data).countP (fun s => isDeficient s && patchHit t1 s)
    ∧ (patch_missing_translations t1 data).2.writes.length
      = (patch_missing_translations t1 data).2.count :=
  patcher_spec t1 data

/-- C6: the Refiner chunks the translatable blocks (non-empty headings
and paragraphs) into groups of 15 (exactly 15 except possibly the last,
whose concatenation restores the translatable sublist), preserves the
block count, leaves non-translatable blocks untouched, retains any chunk
whose service call fails, and on success rewrites a chunk's segments
positionally — the i-th segment takes the i-th returned entry, segments
beyond the returned list's length stay unchanged. -/
theorem C6_refiner_contract (replies : Nat → Option (List String))
    (blocks : List OutBlock) :
    (chunksOf15 (blocks.filter (fun b => isTranslatable b))).flatten
        = blocks.filter (fun b => isTranslatable b)
    ∧ (∀ c ∈ chunksOf15 (blocks.filter (fun b => isTranslatable b)),
        c ≠ [] ∧ c.length ≤ 15)
    ∧ (∀ c ∈ (chunksOf15 (blocks.filter (fun b => isTranslatable b))).dropLast,
        c.length = 15)
    ∧ (refine_narrative_chunked replies blocks).length = blocks.length
    ∧ (∀ pr ∈ blocks.zip (refine_narrative_chunked replies blocks),
        isTranslatable pr.1 = false → pr.2 = pr.1)
    ∧ (∀ chunk : List OutBlock, refine_chunk none chunk = chunk)
    ∧ (∀ (chunk : List OutBlock) (refined : List String),
        chunk ≠ [] → pyStrip (inputTextOf chunk).data ≠ [] →
        outSegs (refine_chunk (some refined) chunk)
          = ((outSegs chunk).zip refined).map (fun pr => ⟨pr.1.en, pr.2⟩)
              ++ (outSegs chunk).drop refined.length) :=
  ⟨chunksOf15_flatten _,
   chunksGo_sizes _ [] 15 (by simp),
   chunksGo_dropLast_sizes _ [] 15 (by simp),
   refine_narrative_length replies blocks,
   refine_narrative_nontrans replies blocks,
   refine_chunk_none,
   fun _ refined h1 h2 => refine_chunk_some_segs h1 h2 refined⟩

/-- C7 (counterexample): on `"Dr. Smith arrived. He left."` the
segmenter does return exactly two sentences, but the first is
`"Dr.Smith arrived."` — the whitespace the split pattern consumed after
the abbreviation is never restored — so the claimed substring
`"Dr. Smith arrived."` does NOT occur in it. -/
theorem C7_first_sentence_lacks_space :
    (split_sentences "Dr. Smith arrived. He left.").length = 2
    ∧ hasSubstr "Dr. Smith arrived.".data
        ((split_sentences "Dr. Smith arrived. He left.").headD "").data = false := by
  decide

/-- C7 (amended): `"Dr. Smith arrived. He left."` segments to exactly
`["Dr.Smith arrived.", "He left."]`: two sentences, no split at the
abbreviation, but the space after `"Dr."` is lost in the rejoin. -/
theorem C7_abbreviation_rejoin :
    split_sentences "Dr. Smith arrived. He left."
      = ["Dr.Smith arrived.", "He left."] := by
  decide

/-- C8: the segmenter is idempotent — re-segmenting the
whitespace-joined concatenation of its own output returns the same
sentence sequence, for every input text. -/
theorem C8_segmentation_idempotent (t : List Char) :
    splitSentencesL (joinSp (splitSentencesL t)) = splitSentencesL t :=
  good_roundtrip (splitSentencesL_good t)

/-- C9 (counterexample): a non-empty Document State whose first block is
an image: the image branch `continue`s before the `i == 0` check, so no
chapter is opened, and the paragraph fragment `<p>Sain.</p>` that
precedes the first heading is dropped from the EPUB — the first block
did NOT start a chapter and pre-heading content is lost. -/
theorem C9_image_first_drops_content :
    assemble_epub (fun _ => true)
        [OutBlock.image 1 "i.png",
         OutBlock.text 1 BType.paragraph [⟨"Hi", "Sain."⟩],
         OutBlock.text 1 BType.heading [⟨"T", "Garchig."⟩],
         OutBlock.text 1 BType.paragraph [⟨"Q", "Dahiad."⟩]]
      = [⟨"Garchig.", ["<h1>Garchig.</h1>", "<p>Dahiad.</p>"]⟩]
    ∧ "<p>Sain.</p>" ∉ ((assemble_epub (fun _ => true)
        [OutBlock.image 1 "i.png",
         OutBlock.text 1 BType.paragraph [⟨"Hi", "Sain."⟩],
         OutBlock.text 1 BType.heading [⟨"T", "Garchig."⟩],
         OutBlock.text 1 BType.paragraph [⟨"Q", "Dahiad."⟩]]).map
          Chapter.fragments).flatten := by
  decide

/-- C9 (amended): when the first block is a TEXT block it does start a
chapter even if it is not a heading — the first chapter carries that
block's title and every later block contributes its fragment — but a
leading IMAGE block does not, and fragments accumulated before the first
heading are then dropped (see the counterexample). -/
theorem C9_text_first_starts_chapter (pathExists : String → Bool) (pg : Nat)
    (bt : BType) (c : List Seg) (rest : List OutBlock) :
    (∃ frags rest3, assemble_epub pathExists (OutBlock.text pg bt c :: rest)
        = ⟨titleOf (OutBlock.text pg bt c), frags⟩ :: rest3)
    ∧ ((assemble_epub pathExists (OutBlock.text pg bt c :: rest)).map
          Chapter.fragments).flatten
      = ("<h1>" ++ titleOf (OutBlock.text pg bt c) ++ "</h1>")
          :: (rest.map (fragOf pathExists)).flatten := by
  rw [assemble_epub, List.enum_cons, List.foldl_cons, epubStep_first_text]
  obtain ⟨h1, h2⟩ := epub_fold pathExists (rest.enumFrom 1) []
    (if joinMn c = "" then "Chapter" else joinMn c)
    ["<h1>" ++ (if joinMn c = "" then "Chapter" else joinMn c) ++ "</h1>"]
    (enumFrom_one_ne_zero rest)
  constructor
  · obtain ⟨frags, rest3, hr⟩ := h2
    exact ⟨frags, rest3, by rw [hr]; rfl⟩
  · rw [h1]
    rw [show ((rest.enumFrom 1).map (fun pr => fragOf pathExists pr.2))
        = ((rest.enumFrom 1).map Prod.snd).map (fragOf pathExists) from
      (List.map_map (fragOf pathExists) Prod.snd (rest.enumFrom 1)).symm]
    rw [List.enumFrom_map_snd]
    rfl

/-- C10 (counterexample): on a reply holding a trailing comma,
`reply: \x7b"a": 1,\x7d end`, main.py's `extract_json` repairs the comma
and parses the object while assemble.py's returns `None` — the two
routines are not extensionally equal. -/
theorem C10_trailing_comma_divergence :
    MainPy.extract_json "reply: \x7b\"a\": 1,\x7d end".data
        = some (JVal.obj [("a", JVal.num "1")])
    ∧ AssemblePy.extract_json "reply: \x7b\"a\": 1,\x7d end".data = none :=
  ⟨rfl, rfl⟩

/-- C10 (amended): the two `extract_json` routines differ only in
main.py's trailing-comma repair: on every input whose extracted span the
repair leaves unchanged (in particular any span without a comma directly
before a closer), they return the same result. -/
theorem C10_agree_when_repair_trivial (text : List Char)
    (h : (findSpan (stripCtrl text)).map commaRepair = findSpan (stripCtrl text)) :
    MainPy.extract_json text = AssemblePy.extract_json text := by
  rw [MainPy.extract_json, AssemblePy.extract_json]
  cases hs : findSpan (stripCtrl text) with
  | none => rfl
  | some span =>
    rw [hs, Option.map_some'] at h
    rw [Option.some_inj] at h
    dsimp only
    rw [h]

/-- C10 (witness): at the concrete input `ok \x7b"a": 1\x7d` the repair
is the identity on the span and the two routines agree. -/
theorem C10_agree_witness :
    MainPy.extract_json "ok \x7b\"a\": 1\x7d".data
      = AssemblePy.extract_json "ok \x7b\"a\": 1\x7d".data :=
  C10_agree_when_repair_trivial _ (by rfl)

end MTB
